import Mathlib

set_option maxHeartbeats 1000000

/- Shallow embedding of the argweaver threading core: the emission engine
   (src/src/emit.cpp) and the forward/traceback HMM engine
   (src/unnamed/part_000, the sample_thread translation unit).

   Real arithmetic is modelled over an arbitrary linear ordered field; the
   transcendental functions exp and log, the random sampler, and the external
   collaborators (postorder enumeration, coalescence-state enumeration, tree
   editing, state priors) are parameters collected in the record ExtC.
   Uninitialised C storage is modelled as 0; claims only quantify over the
   entries the C code actually writes. -/

variable {α : Type} [LinearOrderedField α]

/-- Observed characters of sequences; upper and lower case collapse (the C code
treats 'n' like 'N' and dna2int is case insensitive). -/
inductive DNAb : Type
  | A | C | G | T | N
deriving DecidableEq

/-- Modelled from the spec: dna2int of seq.h maps A,C,G,T to 0,1,2,3.  The embedded
code paths never apply it to N; we map N to 0. -/
def dna2int : DNAb → Nat
  | DNAb.A => 0
  | DNAb.C => 1
  | DNAb.G => 2
  | DNAb.T => 3
  | DNAb.N => 0

/-- A node of a local tree (local_tree.h is an external collaborator; fields are
exactly those the embedded code reads: parent, child[2], age). -1 encodes
"no parent" / "no child". -/
structure LocalNode where
  parent : Int
  child0 : Int
  child1 : Int
  age : Nat
deriving DecidableEq

/-- Modelled from the spec: LocalNode::is_leaf — leaves have no children. -/
def LocalNode.is_leaf (n : LocalNode) : Bool := n.child0 == -1

/-- A local tree: node array of length nnodes plus root index. -/
structure LocalTree where
  nnodes : Nat
  root : Nat
  nodes : Nat → LocalNode

/-- Modelled from the spec: LocalTree::get_sibling — the other child of the parent. -/
def LocalTree.get_sibling (tree : LocalTree) (j : Nat) : Nat :=
  let p := (tree.nodes j).parent.toNat
  if (tree.nodes p).child0 = (j : Int) then (tree.nodes p).child1.toNat
  else (tree.nodes p).child0.toNat

/-- Modelled from the spec: LocalTree::get_dist — branch length of node j,
times[parent age] - times[age]. -/
def LocalTree.get_dist (tree : LocalTree) (times : Nat → α) (j : Nat) : α :=
  times (tree.nodes ((tree.nodes j).parent.toNat)).age - times (tree.nodes j).age

/-- The model/parameter container (model.h, external): the fields the core reads. -/
structure ArgModel (α : Type) where
  ntimes : Nat
  times : Nat → α
  mu : α
  rho : α
  mintime : α
  removed_root_time : Nat

/-- A coalescence state: (node, time index). -/
abbrev StateP := Nat × Nat

/-- External collaborators consumed by the core (spec section 6), as opaque
function parameters: exp/log, the RNG-driven sampler sample(A, n), postorder
enumeration, tree editing (thread.cpp), state enumeration (states.h),
state priors and local-model lookup. -/
structure ExtC (α : Type) where
  rexp : α → α
  rlog : α → α
  sample : (Nat → α) → Nat → Nat
  getPostorder : LocalTree → List Nat
  getNumLeaves : LocalTree → Nat
  addTreeBranch : LocalTree → Nat → Nat → LocalTree
  removeTreeBranch : LocalTree → Nat → LocalTree
  getCoalStates : LocalTree → Nat → Bool → List StateP
  calcStatePriors : List StateP → ArgModel α → Nat → Nat → α
  getLocalModel : ArgModel α → Nat → ArgModel α

/- ====================================================================
   emit.cpp : invariant sites
   ==================================================================== -/

/-- is_invariant_site: true iff all observed characters at pos agree. -/
def is_invariant_site (seqs : Nat → Nat → DNAb) (nseqs pos : Nat) : Bool :=
  (List.range (nseqs - 1)).all (fun j => seqs (j + 1) pos == seqs 0 pos)

/-- find_invariant_sites: the invariant flag per site. -/
def find_invariant_sites (seqs : Nat → Nat → DNAb) (nseqs seqlen : Nat) :
    Nat → Bool :=
  fun i => is_invariant_site seqs nseqs i

/- ====================================================================
   emit.cpp : mutation probabilities (Jukes-Cantor)
   ==================================================================== -/

/-- prob_branch: Jukes-Cantor probability of (no) mutation over time t. -/
def prob_branch (E : ExtC α) (t mu : α) (mutb : Bool) : α :=
  if !mutb then (1 / 4) * (1 + 3 * E.rexp (-((4 / 3) * mu * t)))
  else (1 / 4) * (1 - E.rexp (-((4 / 3) * mu * t)))

/-- prob_tree_mutation: per-node mutation probabilities (muts, nomuts).
Entries the C code leaves uninitialised (root; parent at removed_root_time)
are modelled as 0. -/
def prob_tree_mutation (E : ExtC α) (tree : LocalTree) (model : ArgModel α) :
    (Nat → α) × (Nat → α) :=
  (fun i =>
     if i = tree.root ∨
        (tree.nodes ((tree.nodes i).parent.toNat)).age = model.removed_root_time then 0
     else
       prob_branch E
         (max (model.times (tree.nodes ((tree.nodes i).parent.toNat)).age -
               model.times (tree.nodes i).age) model.mintime) model.mu true,
   fun i =>
     if i = tree.root ∨
        (tree.nodes ((tree.nodes i).parent.toNat)).age = model.removed_root_time then 0
     else
       prob_branch E
         (max (model.times (tree.nodes ((tree.nodes i).parent.toNat)).age -
               model.times (tree.nodes i).age) model.mintime) model.mu false)

/- ====================================================================
   emit.cpp : partial likelihood tables (Felsenstein pruning)
   ==================================================================== -/

/-- likelihood_site_node_inner: one node's inner partial likelihood row. -/
def likelihood_site_node_inner (tree : LocalTree) (node : Nat)
    (seqs : Nat → Nat → DNAb) (pos : Nat) (muts nomuts : Nat → α)
    (inner : Nat → Nat → α) : Nat → Nat → α :=
  let j := node
  if (tree.nodes j).is_leaf then
    match seqs j pos with
    | DNAb.N => Function.update inner j (fun _ => 1)
    | c => Function.update inner j (fun a => if a = dna2int c then 1 else 0)
  else
    let c1 := (tree.nodes j).child0.toNat
    let c2 := (tree.nodes j).child1.toNat
    Function.update inner j (fun a =>
      (Finset.sum (Finset.range 4) (fun b =>
         if a = b then inner c1 b * nomuts c1 else inner c1 b * muts c1)) *
      (Finset.sum (Finset.range 4) (fun b =>
         if a = b then inner c2 b * nomuts c2 else inner c2 b * muts c2)))

/-- likelihood_site_inner: run the inner pass along a (partial) postorder and
return the site likelihood (quarter-sum at the root) plus the updated table. -/
def likelihood_site_inner (tree : LocalTree) (seqs : Nat → Nat → DNAb)
    (pos : Nat) (order : List Nat) (muts nomuts : Nat → α)
    (inner0 : Nat → Nat → α) : α × (Nat → Nat → α) :=
  let inner := order.foldl
    (fun inn nd => likelihood_site_node_inner tree nd seqs pos muts nomuts inn) inner0
  (Finset.sum (Finset.range 4) (fun a => inner tree.root a * (1 / 4)), inner)

/-- likelihood_site_node_outer: one node's outer partial likelihood row
(root here is the maintree root). -/
def likelihood_site_node_outer (tree : LocalTree) (root node : Nat)
    (muts nomuts : Nat → α) (outer inner : Nat → Nat → α) : Nat → Nat → α :=
  let j := node
  if j = root then Function.update outer j (fun _ => 1)
  else
    let sib := tree.get_sibling j
    let parent := (tree.nodes j).parent.toNat
    if parent ≠ root then
      Function.update outer j (fun a =>
        (Finset.sum (Finset.range 4) (fun b =>
           if a = b then inner sib b * nomuts sib else inner sib b * muts sib)) *
        (Finset.sum (Finset.range 4) (fun b =>
           if a = b then outer parent b * nomuts parent else outer parent b * muts parent)))
    else
      Function.update outer j (fun a =>
        Finset.sum (Finset.range 4) (fun b =>
          if a = b then inner sib b * nomuts sib else inner sib b * muts sib))

/-- The preorder stack loop of likelihood_site_outer, with explicit fuel
(the C loop terminates because a well-formed tree is finite; fuel nnodes
suffices since every maintree node is pushed exactly once). -/
def likelihood_site_outer_loop (tree : LocalTree) (muts nomuts : Nat → α)
    (mroot : Nat) (inner : Nat → Nat → α) :
    Nat → List Nat → (Nat → Nat → α) → (Nat → Nat → α)
  | 0, _, outer => outer
  | _ + 1, [], outer => outer
  | fuel + 1, node :: rest, outer =>
    let outer2 := likelihood_site_node_outer tree mroot node muts nomuts outer inner
    let stack2 :=
      if !(tree.nodes node).is_leaf then
        (tree.nodes node).child1.toNat :: (tree.nodes node).child0.toNat :: rest
      else rest
    likelihood_site_outer_loop tree muts nomuts mroot inner fuel stack2 outer2

/-- likelihood_site_outer: the outer table, computed preorder from the
maintree root. -/
def likelihood_site_outer (tree : LocalTree) (muts nomuts : Nat → α)
    (inner outer0 : Nat → Nat → α) : Nat → Nat → α :=
  let mroot := (tree.nodes tree.root).child1.toNat
  likelihood_site_outer_loop tree muts nomuts mroot inner tree.nnodes [mroot] outer0

/-- calc_inner_outer: inner and outer tables for every non-invariant site
(tables of invariant sites stay at their initial contents, modelled 0). -/
def calc_inner_outer (E : ExtC α) (tree : LocalTree) (model : ArgModel α)
    (seqs : Nat → Nat → DNAb) (invariant : Nat → Bool) :
    (Nat → Nat → Nat → α) × (Nat → Nat → Nat → α) :=
  let order := E.getPostorder tree
  let mn := prob_tree_mutation E tree model
  (fun i =>
     if invariant i then (fun _ _ => 0)
     else (likelihood_site_inner tree seqs i order mn.1 mn.2 (fun _ _ => 0)).2,
   fun i =>
     if invariant i then (fun _ _ => 0)
     else likelihood_site_outer tree mn.1 mn.2
       ((likelihood_site_inner tree seqs i order mn.1 mn.2 (fun _ _ => 0)).2)
       (fun _ _ => 0))

/- ====================================================================
   emit.cpp : likelihood_sites
   ==================================================================== -/

/-- Ancestor walk j, parent(j), ... until -1, with fuel (the dirty-set walk of
likelihood_sites). -/
def ancestor_walk (tree : LocalTree) : Nat → Int → List Nat
  | 0, _ => []
  | fuel + 1, j =>
    if j = -1 then []
    else j.toNat :: ancestor_walk tree fuel (tree.nodes j.toNat).parent

/-- Walk from new_node upward while not dirty, with fuel. -/
def undirty_walk (tree : LocalTree) (dirty : Nat → Bool) : Nat → Nat → List Nat
  | 0, _ => []
  | fuel + 1, j =>
    if dirty j then []
    else j :: undirty_walk tree dirty fuel (tree.nodes j).parent.toNat

/-- The (partial) postorder used by likelihood_sites: the full postorder when
prev_node = -1, otherwise the dirty-set partial postorder. -/
def likelihood_sites_order (E : ExtC α) (tree : LocalTree)
    (prev_node new_node : Int) : List Nat :=
  if prev_node = -1 then E.getPostorder tree
  else
    let dirty : Nat → Bool :=
      fun n => (ancestor_walk tree tree.nnodes prev_node).contains n
    undirty_walk tree dirty tree.nnodes new_node.toNat ++
      ancestor_walk tree tree.nnodes prev_node

/-- The floored branch-length sum computed inside likelihood_sites (the loop
accumulating treelen over all non-root nodes). -/
def likelihood_sites_treelen (tree : LocalTree) (model : ArgModel α) : α :=
  Finset.sum (Finset.range tree.nnodes) (fun i =>
    if i = tree.root then 0
    else max (model.times (tree.nodes ((tree.nodes i).parent.toNat)).age -
              model.times (tree.nodes i).age) model.mintime)

/-- likelihood_sites: per-site emission value for one state index, plus the
updated per-site likelihood tables.  The first component is the function
i ↦ emit[i][statei]. -/
def likelihood_sites (E : ExtC α) (tree : LocalTree) (model : ArgModel α)
    (seqs : Nat → Nat → DNAb) (seqlen statei : Nat)
    (invariant : Option (Nat → Bool)) (table : Nat → Nat → Nat → α)
    (prev_node new_node : Int) : (Nat → α) × (Nat → Nat → Nat → α) :=
  let order := likelihood_sites_order E tree prev_node new_node
  let muts : Nat → α := fun i =>
    if i = tree.root then 0
    else prob_branch E
      (max (model.times (tree.nodes ((tree.nodes i).parent.toNat)).age -
            model.times (tree.nodes i).age) model.mintime) model.mu true
  let nomuts : Nat → α := fun i =>
    if i = tree.root then 0
    else prob_branch E
      (max (model.times (tree.nodes ((tree.nodes i).parent.toNat)).age -
            model.times (tree.nodes i).age) model.mintime) model.mu false
  let invariant_lk : α :=
    (1 / 4) * E.rexp (-(model.mu * max (likelihood_sites_treelen tree model) model.mintime))
  (fun i =>
     match invariant with
     | some inv =>
       if inv i then invariant_lk
       else (likelihood_site_inner tree seqs i order muts nomuts (table i)).1
     | none => (likelihood_site_inner tree seqs i order muts nomuts (table i)).1,
   fun i =>
     match invariant with
     | some inv =>
       if inv i then table i
       else (likelihood_site_inner tree seqs i order muts nomuts (table i)).2
     | none => (likelihood_site_inner tree seqs i order muts nomuts (table i)).2)

/- ====================================================================
   emit.cpp : calc_emissions and calc_emissions_slow
   ==================================================================== -/

/-- The per-state loop of calc_emissions: builds one emission column per state,
threading the editable tree and the likelihood tables; also tracks the
prev_node/new_node pair (dead in this source snapshot: the dirty-set call to
likelihood_sites is commented out and (-1, -1) is passed). -/
def calc_emissions_go (E : ExtC α) (tree : LocalTree) (model : ArgModel α)
    (seqs : Nat → Nat → DNAb) (seqlen : Nat) (invariant : Nat → Bool)
    (newleaf : Nat) :
    List StateP → Nat → LocalTree → Int → (Nat → Nat → Nat → α) →
      (Nat → Nat → α) → (Nat → Nat → α)
  | [], _, _, _, _, emit => emit
  | st :: rest, j, tree2, _prev_node, table, emit =>
    let tree3 := E.addTreeBranch tree2 st.1 st.2
    let new_node0 : Nat := st.1
    let _new_node : Nat := if new_node0 ≠ newleaf then new_node0 else tree.nnodes - 1
    let r := likelihood_sites E tree3 model seqs seqlen j (some invariant) table (-1) (-1)
    let emit2 : Nat → Nat → α := fun i => Function.update (emit i) j (r.1 i)
    let tree4 := E.removeTreeBranch tree3 newleaf
    let prev2 : Int := (tree4.nodes st.1).parent
    let prev3 : Int := if prev2 ≠ (newleaf : Int) then prev2 else ((tree.nnodes - 1 : Nat) : Int)
    calc_emissions_go E tree model seqs seqlen invariant newleaf rest (j + 1) tree4 prev3 r.2 emit2

/-- calc_emissions: emission table for external threading. -/
def calc_emissions (E : ExtC α) (states : List StateP) (tree : LocalTree)
    (seqs : Nat → Nat → DNAb) (nseqs seqlen : Nat) (model : ArgModel α) :
    Nat → Nat → α :=
  let newleaf := E.getNumLeaves tree
  let invariant := find_invariant_sites seqs nseqs seqlen
  calc_emissions_go E tree model seqs seqlen invariant newleaf states 0 tree (-1)
    (fun _ _ _ => 0) (fun _ _ => 0)

/-- The per-state loop of calc_emissions_slow (identical except that no
prev_node/new_node pair is tracked). -/
def calc_emissions_slow_go (E : ExtC α) (tree : LocalTree) (model : ArgModel α)
    (seqs : Nat → Nat → DNAb) (seqlen : Nat) (invariant : Nat → Bool)
    (newleaf : Nat) :
    List StateP → Nat → LocalTree → (Nat → Nat → Nat → α) →
      (Nat → Nat → α) → (Nat → Nat → α)
  | [], _, _, _, emit => emit
  | st :: rest, j, tree2, table, emit =>
    let tree3 := E.addTreeBranch tree2 st.1 st.2
    let r := likelihood_sites E tree3 model seqs seqlen j (some invariant) table (-1) (-1)
    let emit2 : Nat → Nat → α := fun i => Function.update (emit i) j (r.1 i)
    let tree4 := E.removeTreeBranch tree3 newleaf
    calc_emissions_slow_go E tree model seqs seqlen invariant newleaf rest (j + 1) tree4 r.2 emit2

/-- calc_emissions_slow: the slow literal emission calculation. -/
def calc_emissions_slow (E : ExtC α) (states : List StateP) (tree : LocalTree)
    (seqs : Nat → Nat → DNAb) (nseqs seqlen : Nat) (model : ArgModel α) :
    Nat → Nat → α :=
  let newleaf := E.getNumLeaves tree
  let invariant := find_invariant_sites seqs nseqs seqlen
  calc_emissions_slow_go E tree model seqs seqlen invariant newleaf states 0 tree
    (fun _ _ _ => 0) (fun _ _ => 0)

/-- Modelled from the spec: fequal(x, y, rel, eps) of common.h — agreement
within relative tolerance rel or absolute tolerance eps. -/
def fequal (x y rel eps : α) : Prop := |x - y| ≤ eps ∨ |x - y| ≤ rel * |y|

/- ====================================================================
   emit.cpp : calc_emissions_internal
   ==================================================================== -/

/-- The preorder stack loop accumulating floored branch lengths below a
traversal root (the maintreelen/subtreelen loops of calc_emissions_internal),
with explicit fuel (nnodes suffices: every visited node is pushed once). -/
def treelen_loop (tree : LocalTree) (times : Nat → α) (mintime : α)
    (troot : Nat) : Nat → List Nat → α → α
  | 0, _, acc => acc
  | _ + 1, [], acc => acc
  | fuel + 1, node :: rest, acc =>
    let acc2 := if node ≠ troot
      then acc + max (tree.get_dist times node) mintime else acc
    let rest2 :=
      if !(tree.nodes node).is_leaf then
        (tree.nodes node).child1.toNat :: (tree.nodes node).child0.toNat :: rest
      else rest
    treelen_loop tree times mintime troot fuel rest2 acc2

/-- Floored branch-length sum of the subtree hanging below troot (excluding
troot's own branch). -/
def subtree_len (tree : LocalTree) (times : Nat → α) (mintime : α)
    (troot : Nat) : α :=
  treelen_loop tree times mintime troot tree.nnodes [troot] 0

/-- The per-state augmented tree length computed by calc_emissions_internal:
maintree plus subtree floored lengths plus the state-dependent connecting
branch terms (one extra term when coalescing onto the maintree root). -/
def internal_state_treelen (tree : LocalTree) (model : ArgModel α)
    (st : StateP) : α :=
  let maintree_root := (tree.nodes tree.root).child1.toNat
  let subtree_root := (tree.nodes tree.root).child0.toNat
  let mintime := model.mintime
  let maintreelen := subtree_len tree model.times mintime maintree_root
  let subtreelen := subtree_len tree model.times mintime subtree_root
  let time1 := model.times (tree.nodes subtree_root).age
  let coal_time := model.times st.2
  if st.1 = maintree_root then
    maintreelen + subtreelen + max (coal_time - time1) mintime +
      max (coal_time - model.times (tree.nodes maintree_root).age) mintime
  else
    maintreelen + subtreelen + max (coal_time - time1) mintime

/-- calc_emissions_internal: emissions for internal branch resampling.  For a
fully specified tree (zero states) entry 0 of every site is 1 (untouched
entries modelled 0). -/
def calc_emissions_internal (E : ExtC α) (states : List StateP)
    (tree : LocalTree) (seqs : Nat → Nat → DNAb) (nseqs seqlen : Nat)
    (model : ArgModel α) : Nat → Nat → α :=
  let maintree_root := (tree.nodes tree.root).child1.toNat
  let subtree_root := (tree.nodes tree.root).child0.toNat
  let mintime := model.mintime
  if states.length = 0 then
    fun _ s => if s = 0 then 1 else 0
  else
    let invariant := find_invariant_sites seqs nseqs seqlen
    let tables := calc_inner_outer E tree model seqs invariant
    fun i j =>
      let st := states.getD j (0, 0)
      let node1 := subtree_root
      let node2 := st.1
      let parent := (tree.nodes node2).parent.toNat
      let time1 := model.times (tree.nodes node1).age
      let time2 := model.times (tree.nodes node2).age
      let parent_time := model.times (min (tree.nodes parent).age (model.ntimes - 1))
      let coal_time := model.times st.2
      let dist1 := max (coal_time - time1) mintime
      let dist2 := max (coal_time - time2) mintime
      let dist3 := max (parent_time - coal_time) mintime
      let mut1 := prob_branch E dist1 model.mu true
      let mut2 := prob_branch E dist2 model.mu true
      let mut3 := prob_branch E dist3 model.mu true
      let nomut1 := prob_branch E dist1 model.mu false
      let nomut2 := prob_branch E dist2 model.mu false
      let nomut3 := prob_branch E dist3 model.mu false
      let treelen := internal_state_treelen tree model st
      let invariant_lk := (1 / 4) * E.rexp (-(model.mu * max treelen mintime))
      if invariant i then invariant_lk
      else
        let inn := tables.1 i
        let out := tables.2 i
        Finset.sum (Finset.range 4) (fun a =>
          let p1 := Finset.sum (Finset.range 4) (fun b =>
            if a = b then inn node1 b * nomut1 else inn node1 b * mut1)
          let p2 := Finset.sum (Finset.range 4) (fun b =>
            if a = b then inn node2 b * nomut2 else inn node2 b * mut2)
          let p3 := Finset.sum (Finset.range 4) (fun b =>
            if a = b then out node2 b * nomut3 else out node2 b * mut3)
          if node2 ≠ maintree_root then p1 * p2 * p3 * (1 / 4)
          else p1 * p2 * (1 / 4))

/- ====================================================================
   Forward algorithm (part_000): transition operators
   ==================================================================== -/

/-- The within-block transition operator (trans.h, external): the fields the
core reads.  gtime is TransMatrix::get_time(a, b, c, minage, same_branch);
glog is TransMatrix::get_log restricted to its two state-index arguments. -/
structure TransMatrix (α : Type) where
  internal : Bool
  nstates : Nat
  gtime : Nat → Nat → Nat → Nat → Bool → α
  glog : Nat → Nat → α

/-- The minage computed at the head of arghmm_forward_block (and inside
TransMatrix::get): the subtree-root age in internal mode, else 0. -/
def block_minage (internal : Bool) (tree : LocalTree) : Nat :=
  if internal then (tree.nodes ((tree.nodes tree.root).child0.toNat)).age else 0

/-- Modelled from the spec: TransMatrix::get(tree, states, j, k) (trans.h) —
the full transition entry states[j] → states[k]: the same-branch value of
get_time when both states sit on the same node, otherwise the time-only
baseline (third argument ignored, passed as 0). -/
def TransMatrix.get (m : TransMatrix α) (tree : LocalTree)
    (states : List StateP) (j k : Nat) : α :=
  let minage := block_minage m.internal tree
  let sj := states.getD j (0, 0)
  let sk := states.getD k (0, 0)
  if sj.1 = sk.1 then m.gtime sj.2 sk.2 (tree.nodes sk.1).age minage true
  else m.gtime sj.2 sk.2 0 minage false

/-- Modelled from the spec: NodeStateLookup (states.h) — the index of state
(node, age) in the enumeration, or -1 when absent. -/
def state_lookup (states : List StateP) (node age : Nat) : Int :=
  match states.findIdx? (fun s => decide (s.1 = node ∧ s.2 = age)) with
  | some i => (i : Int)
  | none => -1

/-- ages1[i] of arghmm_forward_block: max(node age, minage). -/
def ages1 (tree : LocalTree) (minage i : Nat) : Nat :=
  max (tree.nodes i).age minage

/-- maxtime of arghmm_forward_block: the largest state time. -/
def states_maxtime (states : List StateP) : Nat :=
  states.foldl (fun m s => max m s.2) 0

/-- ages2[i] of arghmm_forward_block: the parent age, with maxtime at the root
(and additionally at the maintree root in internal mode). -/
def ages2 (tree : LocalTree) (internal : Bool) (maxtime i : Nat) : Nat :=
  if internal then
    if i = (tree.nodes tree.root).child1.toNat ∨ i = tree.root then maxtime
    else (tree.nodes ((tree.nodes i).parent.toNat)).age
  else
    if i = tree.root then maxtime
    else (tree.nodes ((tree.nodes i).parent.toNat)).age

/-- tmatrix[a][b] of arghmm_forward_block: the time-only baseline. -/
def fb_tmatrix (m : TransMatrix α) (minage a b : Nat) : α :=
  m.gtime a b 0 minage false

/-- tmatrix2[a][k] of arghmm_forward_block: the same-branch correction over the
baseline for destination state k. -/
def fb_tmatrix2 (m : TransMatrix α) (tree : LocalTree) (states : List StateP)
    (minage a k : Nat) : α :=
  let b := (states.getD k (0, 0)).2
  let node2 := (states.getD k (0, 0)).1
  m.gtime a b (tree.nodes node2).age minage true - m.gtime a b 0 minage false

/-- fgroups[a]: group sum of the previous column over states with source time a. -/
def fb_fgroups (states : List StateP) (col1 : Nat → α) (a : Nat) : α :=
  Finset.sum ((Finset.range states.length).filter
    (fun j => (states.getD j (0, 0)).2 = a)) col1

/-- tmatrix_fgroups[b]: contraction of the baseline with the group sums (both
time indices range over [0, ntimes-1) as in the source loops). -/
def fb_tmatrix_fgroups (m : TransMatrix α) (states : List StateP)
    (minage ntimes : Nat) (col1 : Nat → α) (b : Nat) : α :=
  Finset.sum (Finset.range (ntimes - 1))
    (fun a => fb_tmatrix m minage a b * fb_fgroups states col1 a)

/-- The pre-normalization entry of one factored forward column: time-only
baseline plus the contiguous same-branch run, times the emission. -/
def fast_col_raw (m : TransMatrix α) (tree : LocalTree) (ntimes : Nat)
    (states : List StateP) (col1 emit2 : Nat → α) (k : Nat) : α :=
  let minage := block_minage m.internal tree
  let b := (states.getD k (0, 0)).2
  let node2 := (states.getD k (0, 0)).1
  let age1 := ages1 tree minage node2
  let age2 := ages2 tree m.internal (states_maxtime states) node2
  let j1 := (state_lookup states node2 age1).toNat
  (fb_tmatrix_fgroups m states minage ntimes col1 b +
     Finset.sum (Finset.Icc age1 age2)
       (fun a => fb_tmatrix2 m tree states minage a k * col1 (j1 + (a - age1)))) *
    emit2 k

/-- Per-column normalization: divide by the sum of the first n entries. -/
def normalize_col (n : Nat) (raw : Nat → α) : Nat → α :=
  fun k => raw k / Finset.sum (Finset.range n) raw

/-- One factored within-block column step (the body of the position loop of
arghmm_forward_block), normalized. -/
def fast_col_step (m : TransMatrix α) (tree : LocalTree) (ntimes : Nat)
    (states : List StateP) (col1 emit2 : Nat → α) : Nat → α :=
  normalize_col states.length (fast_col_raw m tree ntimes states col1 emit2)

/-- The pre-normalization entry of one full S-by-S column (the body of the
position loop of arghmm_forward_block_slow). -/
def slow_col_raw (m : TransMatrix α) (tree : LocalTree) (states : List StateP)
    (col1 emit2 : Nat → α) (k : Nat) : α :=
  Finset.sum (Finset.range states.length)
    (fun j => col1 j * m.get tree states j k) * emit2 k

/-- One full S-by-S column step, normalized. -/
def slow_col_step (m : TransMatrix α) (tree : LocalTree) (states : List StateP)
    (col1 emit2 : Nat → α) : Nat → α :=
  normalize_col states.length (slow_col_raw m tree states col1 emit2)

/-- The column sequence of a within-block recurrence: column 0 is the
pre-populated first column, column i+1 is one step from column i with the
emission row of site i+1. -/
def forward_block_cols (step : (Nat → α) → (Nat → α) → (Nat → α))
    (col0 : Nat → α) (emit : Nat → Nat → α) : Nat → (Nat → α)
  | 0 => col0
  | i + 1 => step (forward_block_cols step col0 emit i) (emit (i + 1))

/-- Write columns 1..blocklen-1 of a block recurrence into the forward table at
positions p+1..p+blocklen-1 (the pre-populated seed column at p stays). -/
def fill_columns (fw : Nat → Nat → α) (p : Nat) (cols : Nat → Nat → α)
    (blocklen : Nat) : Nat → Nat → α :=
  fun q => if p < q ∧ q < p + blocklen then cols (q - p) else fw q

/-- arghmm_forward_block: the factored within-block forward recurrence, written
into fw starting at position p (whose column must be pre-populated).  The
internal fully-given special case (zero states) copies entry 0 forward. -/
def arghmm_forward_block (m : TransMatrix α) (tree : LocalTree)
    (ntimes blocklen : Nat) (states : List StateP) (emit : Nat → Nat → α)
    (fw : Nat → Nat → α) (p : Nat) : Nat → Nat → α :=
  if m.internal ∧ states.length = 0 then
    fun q => if p < q ∧ q < p + blocklen
             then (fun s => if s = 0 then fw p 0 else fw q s)
             else fw q
  else
    fill_columns fw p
      (forward_block_cols (fast_col_step m tree ntimes states) (fw p) emit) blocklen

/-- arghmm_forward_block_slow: the full S-by-S within-block recurrence. -/
def arghmm_forward_block_slow (m : TransMatrix α) (tree : LocalTree)
    (blocklen : Nat) (states : List StateP) (emit : Nat → Nat → α)
    (fw : Nat → Nat → α) (p : Nat) : Nat → Nat → α :=
  fill_columns fw p
    (forward_block_cols (slow_col_step m tree states) (fw p) emit) blocklen

/- ====================================================================
   Forward algorithm (part_000): the switch step
   ==================================================================== -/

/-- The cross-block switch operator (trans.h, external): the fields
arghmm_forward_switch reads, plus the opaque accessors get / get_log used by
the traceback steps.  Log-probability rows hold none for -infinity. -/
structure TransMatrixSwitch (α : Type) where
  nstates1 : Nat
  nstates2 : Nat
  recombsrc : Int
  recoalsrc : Int
  determ : Nat → Int
  determprob : Nat → α
  recombrow : Nat → Option α
  recoalrow : Nat → Option α
  sget : Nat → Nat → α
  sgetlog : Nat → Nat → α

/-- The deterministic-transition scatter loop of arghmm_forward_switch. -/
def switch_determ_scatter (E : ExtC α) (m : TransMatrixSwitch α)
    (col1 : Nat → α) (n1 : Nat) : Nat → α :=
  (List.range n1).foldl
    (fun c (j : Nat) =>
      if (j : Int) ≠ m.recombsrc ∧ (j : Int) ≠ m.recoalsrc ∧ m.determ j ≠ -1 then
        Function.update c (m.determ j).toNat
          (c (m.determ j).toNat + col1 j * E.rexp (m.determprob j))
      else c)
    (fun _ => 0)

/-- The recombination / recoalescence additions plus the emission factor (the
second loop of arghmm_forward_switch), for k below nstates2 (clamped to 1);
entries above keep the scatter value, mirroring the untouched C entries. -/
def switch_col_raw (E : ExtC α) (m : TransMatrixSwitch α)
    (col1 emit : Nat → α) : Nat → α :=
  let n1 := max m.nstates1 1
  let n2 := max m.nstates2 1
  let base := switch_determ_scatter E m col1 n1
  fun k =>
    if k < n2 then
      (base k +
        (if m.recombsrc ≠ -1 ∧ (m.recombrow k).isSome
         then col1 m.recombsrc.toNat * E.rexp ((m.recombrow k).getD 0) else 0) +
        (if m.recoalsrc ≠ -1 ∧ (m.recoalrow k).isSome
         then col1 m.recoalsrc.toNat * E.rexp ((m.recoalrow k).getD 0) else 0)) * emit k
    else base k

/-- max_array (common.h): the maximum of the first n entries. -/
def max_array (f : Nat → α) (n : Nat) : α :=
  (List.range n).foldl (fun m k => max m (f k)) (f 0)

/-- arghmm_forward_switch: one cross-block column via the switch operator:
deterministic scatter, recombination/recoalescence rows, emission factor,
assertion that the maximum entry is positive (failure modelled as none),
then normalization. -/
def arghmm_forward_switch (E : ExtC α) (m : TransMatrixSwitch α)
    (col1 emit : Nat → α) : Option (Nat → α) :=
  let n2 := max m.nstates2 1
  let col2 := switch_col_raw E m col1 emit
  let norm := Finset.sum (Finset.range n2) col2
  if max_array col2 n2 ≤ 0 then none
  else some (fun k => if k < n2 then col2 k / norm else col2 k)

/-- sample_hmm_posterior_step: sample the boundary state across a switch
boundary; a zero-size source space is clamped to size 1. -/
def sample_hmm_posterior_step (E : ExtC α) (m : TransMatrixSwitch α)
    (col1 : Nat → α) (state2 : Nat) : Nat :=
  let n1 := max m.nstates1 1
  E.sample (fun j => if j < n1 then col1 j * m.sget j state2 else 0) n1

/- ====================================================================
   Admissibility predicates for the factored/full equivalence
   ==================================================================== -/

/-- Every state time lies below ntimes - 1 (the range covered by the tmatrix
and tmatrix2 tables of arghmm_forward_block). -/
abbrev states_times_ok (states : List StateP) (ntimes : Nat) : Prop :=
  ∀ j, j < states.length → (states.getD j (0, 0)).2 < ntimes - 1

/-- The enumeration-order invariant of the state set (spec section 4.C): for
every destination state k on node n2, the source states on n2 are exactly the
contiguous run starting at the lookup index, one per time in [age1, age2], and
that run stays inside the tmatrix2 table. -/
abbrev enum_ok (m : TransMatrix α) (tree : LocalTree) (states : List StateP)
    (ntimes : Nat) : Prop :=
  ∀ k, k < states.length →
    (ages2 tree m.internal (states_maxtime states) (states.getD k (0, 0)).1 < ntimes - 1) ∧
    (∀ d, d ≤ ages2 tree m.internal (states_maxtime states) (states.getD k (0, 0)).1 -
            ages1 tree (block_minage m.internal tree) (states.getD k (0, 0)).1 →
      (state_lookup states (states.getD k (0, 0)).1
          (ages1 tree (block_minage m.internal tree) (states.getD k (0, 0)).1)).toNat + d <
        states.length ∧
      states.getD ((state_lookup states (states.getD k (0, 0)).1
          (ages1 tree (block_minage m.internal tree) (states.getD k (0, 0)).1)).toNat + d) (0, 0) =
        ((states.getD k (0, 0)).1,
         ages1 tree (block_minage m.internal tree) (states.getD k (0, 0)).1 + d)) ∧
    (∀ j, j < states.length → (states.getD j (0, 0)).1 = (states.getD k (0, 0)).1 →
      ages1 tree (block_minage m.internal tree) (states.getD k (0, 0)).1 ≤ (states.getD j (0, 0)).2 ∧
      (states.getD j (0, 0)).2 ≤ ages2 tree m.internal (states_maxtime states) (states.getD k (0, 0)).1 ∧
      j = (state_lookup states (states.getD k (0, 0)).1
            (ages1 tree (block_minage m.internal tree) (states.getD k (0, 0)).1)).toNat +
          ((states.getD j (0, 0)).2 -
           ages1 tree (block_minage m.internal tree) (states.getD k (0, 0)).1))

/- ====================================================================
   Traceback (part_000)
   ==================================================================== -/

/-- One backward write of sample_hmm_posterior at relative index i: sample
path[base+i] from A[j] = fw[base+i][j] · T(j → path[base+i+1]) over the state
space clamped to at least one entry. -/
def shp_write (E : ExtC α) (tree : LocalTree) (states : List StateP)
    (m : TransMatrix α) (fw : Nat → Nat → α) (base : Nat)
    (path : Nat → Nat) (i : Nat) : Nat → Nat :=
  let n := max states.length 1
  let A : Nat → α := fun j =>
    if j < n then fw (base + i) j * m.get tree states j (path (base + i + 1)) else 0
  Function.update path (base + i) (E.sample A n)

/-- The descending loop of sample_hmm_posterior over relative indices
i, i-1, ..., 0. -/
def shp_loop (E : ExtC α) (tree : LocalTree) (states : List StateP)
    (m : TransMatrix α) (fw : Nat → Nat → α) (base : Nat) :
    Nat → (Nat → Nat) → (Nat → Nat)
  | 0, path => shp_write E tree states m fw base path 0
  | i + 1, path =>
    shp_loop E tree states m fw base i (shp_write E tree states m fw base path (i + 1))

/-- sample_hmm_posterior: given path[blocklen-1], sample positions
blocklen-2 .. 0 backwards.  The returned running log-likelihood is always 0:
the accumulation in the source is commented out. -/
def sample_hmm_posterior (E : ExtC α) (blocklen : Nat) (tree : LocalTree)
    (states : List StateP) (m : TransMatrix α) (fw : Nat → Nat → α)
    (base : Nat) (path : Nat → Nat) : (Nat → Nat) × α :=
  match blocklen with
  | 0 => (path, 0)
  | 1 => (path, 0)
  | i + 2 => (shp_loop E tree states m fw base i path, 0)

/-- The argmax scan of the source (maxj = 0 to start, strict improvement),
tracking (maxj, maxprob). -/
def argmax_pair (f : Nat → α) (n : Nat) : Nat × α :=
  (List.range (n - 1)).foldl
    (fun p j1 => if p.2 < f (j1 + 1) then (j1 + 1, f (j1 + 1)) else p) (0, f 0)

/-- The argmax index over the first n entries. -/
def argmax_arr (f : Nat → α) (n : Nat) : Nat := (argmax_pair f n).1

/-- One backward write of max_hmm_posterior at relative index i. -/
def mhp_write (E : ExtC α) (states : List StateP) (m : TransMatrix α)
    (fw : Nat → Nat → α) (base : Nat) (path : Nat → Nat) (i : Nat) :
    Nat → Nat :=
  Function.update path (base + i)
    (argmax_arr (fun j => E.rlog (fw (base + i) j) + m.glog j (path (base + i + 1)))
      states.length)

/-- The descending loop of max_hmm_posterior. -/
def mhp_loop (E : ExtC α) (states : List StateP) (m : TransMatrix α)
    (fw : Nat → Nat → α) (base : Nat) : Nat → (Nat → Nat) → (Nat → Nat)
  | 0, path => mhp_write E states m fw base path 0
  | i + 1, path =>
    mhp_loop E states m fw base i (mhp_write E states m fw base path (i + 1))

/-- max_hmm_posterior: the Viterbi within-block backward step; the loop runs
from n-2 down to 0, so n = 1 performs no iterations and leaves the path
untouched. -/
def max_hmm_posterior (E : ExtC α) (n : Nat) (states : List StateP)
    (m : TransMatrix α) (fw : Nat → Nat → α) (base : Nat)
    (path : Nat → Nat) : Nat → Nat :=
  match n with
  | 0 => path
  | 1 => path
  | i + 2 => mhp_loop E states m fw base i path

/-- max_hmm_posterior_step: Viterbi boundary step across a switch operator
(no size clamping in the source). -/
def max_hmm_posterior_step (E : ExtC α) (m : TransMatrixSwitch α)
    (col1 : Nat → α) (state2 : Nat) : Nat :=
  argmax_arr (fun j => E.rlog (col1 j) + m.sgetlog j state2) m.nstates1

/- ====================================================================
   Block-wise drivers (part_000)
   ==================================================================== -/

/-- One block yielded by the matrix iterator: block length, local tree, the
within-block operator, the switch operator into this block (none for the first
block or a same-ARG-block continuation), the emission matrix
(site-in-block → state), and the destination state-space size nstates2. -/
structure FwBlock (α : Type) where
  blocklen : Nat
  tree : LocalTree
  transmat : TransMatrix α
  switch : Option (TransMatrixSwitch α)
  emit : Nat → Nat → α
  nstates2 : Nat

/-- The body of the stochastic_traceback loop for one block covering
[pos - blocklen, pos): within-block backward sampling, then the boundary
column pos - blocklen - 1 (switch step, or the within-block step applied as a
blocklen-2 single-column step when there is no switch).  Returns the updated
path, the accumulated lnl, and the new position. -/
def st_block (E : ExtC α) (model : ArgModel α) (internal : Bool)
    (fw : Nat → Nat → α) (start : Nat) (b : FwBlock α) (pos : Nat)
    (path : Nat → Nat) (lnl : α) : (Nat → Nat) × α × Nat :=
  let states := E.getCoalStates b.tree model.ntimes internal
  let pos2 := pos - b.blocklen
  let r := sample_hmm_posterior E b.blocklen b.tree states b.transmat fw pos2 path
  let path1 := r.1
  let lnl1 := lnl + r.2
  if pos2 > start then
    match b.switch with
    | some msw =>
      let i := pos2 - 1
      let path2 := Function.update path1 i
        (sample_hmm_posterior_step E msw (fw i) (path1 (i + 1)))
      (path2, lnl1 + E.rlog (fw i (path2 i) * msw.sget (path2 i) (path2 (i + 1))), pos2)
    | none =>
      let r2 := sample_hmm_posterior E 2 b.tree states b.transmat fw (pos2 - 1) path1
      (r2.1, lnl1 + r2.2, pos2)
  else (path1, lnl1, pos2)

/-- The traceback loop over the reversed block list (last block first). -/
def st_loop (E : ExtC α) (model : ArgModel α) (internal : Bool)
    (fw : Nat → Nat → α) (start : Nat) :
    List (FwBlock α) → Nat → (Nat → Nat) → α → (Nat → Nat) × α × Nat
  | [], pos, path, lnl => (path, lnl, pos)
  | b :: rest, pos, path, lnl =>
    let r := st_block E model internal fw start b pos path lnl
    st_loop E model internal fw start rest r.2.2 r.1 r.2.1

/-- stochastic_traceback over the blocks of the iterator (processed in reverse
order).  When the last state is not given, path[end-1] is sampled from the
final forward column over nstates2 of the last block (clamped to 1) and lnl is
initialized to the forward VALUE fw[end-1][path[end-1]] — the source applies
no logarithm there. -/
def stochastic_traceback (E : ExtC α) (model : ArgModel α)
    (blocks : List (FwBlock α)) (start : Nat) (fw : Nat → Nat → α)
    (path0 : Nat → Nat) (last_state_given internal : Bool) :
    (Nat → Nat) × α :=
  let endc := start + (blocks.map (fun b => b.blocklen)).sum
  let lastn := max ((blocks.getLast?.map (fun b => b.nstates2)).getD 0) 1
  let path1 :=
    if !last_state_given then
      Function.update path0 (endc - 1) (E.sample (fw (endc - 1)) lastn)
    else path0
  let lnl0 : α :=
    if !last_state_given then fw (endc - 1) (path1 (endc - 1)) else 0
  let r := st_loop E model internal fw start blocks.reverse endc path1 lnl0
  (r.1, r.2.1)

/-- The body of the max_traceback loop for one block: Viterbi within-block
backward maximization, then the boundary column via the switch step, or — with
no switch — a call of max_hmm_posterior with n = 1, which performs no
iterations. -/
def mt_block (E : ExtC α) (model : ArgModel α) (internal : Bool)
    (fw : Nat → Nat → α) (start : Nat) (b : FwBlock α) (pos : Nat)
    (path : Nat → Nat) : (Nat → Nat) × Nat :=
  let states := E.getCoalStates b.tree model.ntimes internal
  let pos2 := pos - b.blocklen
  let path1 := max_hmm_posterior E b.blocklen states b.transmat fw pos2 path
  if pos2 > start then
    match b.switch with
    | some msw =>
      (Function.update path1 (pos2 - 1)
        (max_hmm_posterior_step E msw (fw (pos2 - 1)) (path1 pos2)), pos2)
    | none =>
      (max_hmm_posterior E 1 states b.transmat fw (pos2 - 1) path1, pos2)
  else (path1, pos2)

/-- The Viterbi traceback loop over the reversed block list. -/
def mt_loop (E : ExtC α) (model : ArgModel α) (internal : Bool)
    (fw : Nat → Nat → α) (start : Nat) :
    List (FwBlock α) → Nat → (Nat → Nat) → (Nat → Nat) × Nat
  | [], pos, path => (path, pos)
  | b :: rest, pos, path =>
    let r := mt_block E model internal fw start b pos path
    mt_loop E model internal fw start rest r.2 r.1

/-- max_traceback: Viterbi traceback over the blocks; when the last state is
not given, path[end-1] is the argmax of the final forward column. -/
def max_traceback (E : ExtC α) (model : ArgModel α)
    (blocks : List (FwBlock α)) (start : Nat) (fw : Nat → Nat → α)
    (path0 : Nat → Nat) (last_state_given internal : Bool) : Nat → Nat :=
  let endc := start + (blocks.map (fun b => b.blocklen)).sum
  let lastn := (blocks.getLast?.map (fun b => b.nstates2)).getD 0
  let path1 :=
    if !last_state_given then
      Function.update path0 (endc - 1) (argmax_arr (fw (endc - 1)) lastn)
    else path0
  (mt_loop E model internal fw start blocks.reverse endc path1).1

/-- One iteration of arghmm_forward_alg for the block starting at pos.  Returns
none when one of the positivity assertions (or the switch-step assertion)
fails.  A non-first block with a null switch operator extends the previous
block: it re-seeds at pos - 1, hands blocklen + 1 to the block recurrence and
shifts the emission pointer one site back. -/
def forward_step (E : ExtC α) (model : ArgModel α) (start : Nat)
    (prior_given internal slow : Bool) (fw : Nat → Nat → α) (pos : Nat)
    (b : FwBlock α) : Option (Nat → Nat → α) :=
  let local_model := E.getLocalModel model pos
  let states := E.getCoalStates b.tree model.ntimes internal
  let nstates := max b.transmat.nstates 1
  if pos = start then
    let fw1 :=
      if !prior_given then
        let minage := if internal then
          (b.tree.nodes ((b.tree.nodes b.tree.root).child0.toNat)).age else 0
        Function.update fw pos (E.calcStatePriors states local_model minage)
      else fw
    if max_array (fw1 pos) nstates ≤ 0 then none
    else
      let fw2 :=
        if slow then arghmm_forward_block_slow b.transmat b.tree b.blocklen states b.emit fw1 pos
        else arghmm_forward_block b.transmat b.tree model.ntimes b.blocklen states b.emit fw1 pos
      if max_array (fw2 (pos + b.blocklen - 1)) nstates ≤ 0 then none
      else some fw2
  else
    match b.switch with
    | some msw =>
      match arghmm_forward_switch E msw (fw (pos - 1)) (b.emit 0) with
      | none => none
      | some col =>
        let fw1 := Function.update fw pos col
        if max_array (fw1 pos) nstates ≤ 0 then none
        else
          let fw2 :=
            if slow then arghmm_forward_block_slow b.transmat b.tree b.blocklen states b.emit fw1 pos
            else arghmm_forward_block b.transmat b.tree model.ntimes b.blocklen states b.emit fw1 pos
          if max_array (fw2 (pos + b.blocklen - 1)) nstates ≤ 0 then none
          else some fw2
    | none =>
      let emit2 : Nat → Nat → α := fun i => b.emit (i - 1)
      if max_array (fw (pos - 1)) nstates ≤ 0 then none
      else
        let fw2 :=
          if slow then arghmm_forward_block_slow b.transmat b.tree (b.blocklen + 1) states emit2 fw (pos - 1)
          else arghmm_forward_block b.transmat b.tree model.ntimes (b.blocklen + 1) states emit2 fw (pos - 1)
        if max_array (fw2 (pos + b.blocklen - 1)) nstates ≤ 0 then none
        else some fw2

/-- The forward loop over the blocks in iterator order. -/
def arghmm_forward_aux (E : ExtC α) (model : ArgModel α) (start : Nat)
    (prior_given internal slow : Bool) :
    List (FwBlock α) → Nat → (Nat → Nat → α) → Option (Nat → Nat → α)
  | [], _, fw => some fw
  | b :: rest, pos, fw =>
    match forward_step E model start prior_given internal slow fw pos b with
    | none => none
    | some fw2 =>
      arghmm_forward_aux E model start prior_given internal slow rest
        (pos + b.blocklen) fw2

/-- arghmm_forward_alg: run the forward algorithm over all blocks, starting
from the (possibly pre-populated) table fw0. -/
def arghmm_forward_alg (E : ExtC α) (model : ArgModel α)
    (blocks : List (FwBlock α)) (start : Nat)
    (prior_given internal slow : Bool) (fw0 : Nat → Nat → α) :
    Option (Nat → Nat → α) :=
  arghmm_forward_aux E model start prior_given internal slow blocks start fw0

/-- find_vector (common.h): the index of an element in a vector, or -1. -/
def find_vector (states : List StateP) (s : StateP) : Int :=
  match states.findIdx? (fun x => decide (x = s)) with
  | some i => (i : Int)
  | none => -1

/-- cond_sample_arg_thread up to the traceback (recombination sampling and the
ARG splice are external consumers of the result): locate the pinned start
state in the first block's states (fail when absent), seed a one-hot first
forward column, run the forward pass with the prior given, locate the pinned
end state in the last block's states (fail when absent), and run the
stochastic traceback with the last state given.  Returns the forward table and
the sampled path. -/
def cond_sample_arg_thread (E : ExtC α) (model : ArgModel α)
    (blocks : List (FwBlock α)) (start : Nat)
    (start_state end_state : StateP) :
    Option ((Nat → Nat → α) × (Nat → Nat)) :=
  match blocks with
  | [] => none
  | b0 :: _ =>
    let states0 := E.getCoalStates b0.tree model.ntimes false
    let j := find_vector states0 start_state
    if j = -1 then none
    else
      let endc := start + (blocks.map (fun b => b.blocklen)).sum
      let fw0 : Nat → Nat → α :=
        Function.update (fun _ _ => 0) start
          (fun s => if s = j.toNat then 1 else 0)
      match arghmm_forward_alg E model blocks start true false false fw0 with
      | none => none
      | some fw =>
        let lastTree := (blocks.getLast?.map (fun b => b.tree)).getD b0.tree
        let statesL := E.getCoalStates lastTree model.ntimes false
        let k := find_vector statesL end_state
        if k = -1 then none
        else
          let path0 := Function.update (fun _ => 0) (endc - 1) k.toNat
          let r := stochastic_traceback E model blocks start fw path0 true false
          some (fw, r.1)

/- ====================================================================
   Concrete instances used by witnesses and counterexamples
   ==================================================================== -/

/-- A one-node tree (single root of age 0). -/
def w_tree1 : LocalTree := ⟨1, 0, fun _ => ⟨-1, -1, -1, 0⟩⟩

/-- A constant transition operator over the rationals. -/
def w_tm1 : TransMatrix ℚ := ⟨false, 2, fun _ _ _ _ _ => 1, fun _ _ => 0⟩

/-- Two states on the root branch, at times 0 and 1. -/
def w_states2 : List StateP := [(0, 0), (0, 1)]

/-- Trivial external collaborators over the rationals. -/
def w_extq : ExtC ℚ :=
  ⟨fun _ => 1, fun _ => 1, fun _ _ => 0, fun _ => [], fun _ => 0,
   fun t _ _ => t, fun t _ => t, fun _ _ _ => [], fun _ _ _ _ => 0, fun m _ => m⟩

/-- A 1-by-1 switch operator with one deterministic transition. -/
def w_sw1 : TransMatrixSwitch ℚ :=
  ⟨1, 1, -1, -1, fun _ => 0, fun _ => 0, fun _ => none, fun _ => none,
   fun _ _ => 1, fun _ _ => 0⟩

/-- A degenerate switch operator with zero-size state spaces. -/
def w_sw0 : TransMatrixSwitch ℚ :=
  ⟨0, 0, -1, -1, fun _ => 0, fun _ => 0, fun _ => none, fun _ => none,
   fun _ _ => 1, fun _ _ => 0⟩

/-- A single state on the root branch at time 0. -/
def w_states1 : List StateP := [(0, 0)]

/-- A switch-free single block of length 1 over the rationals. -/
def w_blk1 : FwBlock ℚ := ⟨1, w_tree1, w_tm1, none, fun _ _ => 1, 2⟩

/-- A three-node tree for internal threading: root 2 with subtree root 0
(child 0) and maintree root 1 (child 1), both leaves of age 0. -/
def w_tree3 : LocalTree :=
  ⟨3, 2, fun n =>
    if n = 0 then ⟨2, -1, -1, 0⟩
    else if n = 1 then ⟨2, -1, -1, 0⟩
    else ⟨-1, 0, 1, 3⟩⟩

/-- A deterministic sampler over the rationals: the first index with positive
weight (0 when none).  Stands in for the RNG sampler in concrete instances. -/
def chooseIdx (A : Nat → ℚ) (n : Nat) : Nat :=
  ((List.range n).find? (fun j => decide (0 < A j))).getD 0

/-- External collaborators over the rationals with a one-state coalescence
state space and the deterministic positive-weight sampler. -/
def w_extqS : ExtC ℚ :=
  ⟨fun _ => 1, fun _ => 1, chooseIdx, fun _ => [], fun _ => 0,
   fun t _ _ => t, fun t _ => t, fun _ _ _ => [(0, 0)], fun _ _ _ _ => 0, fun m _ => m⟩

/-- A constant one-state transition operator over the rationals. -/
def w_tmA : TransMatrix ℚ := ⟨false, 1, fun _ _ _ _ _ => 1, fun _ _ => 0⟩

/-- A switch-free block of length 1 with the one-state operator. -/
def w_blkA : FwBlock ℚ := ⟨1, w_tree1, w_tmA, none, fun _ _ => 1, 1⟩

/-- A switch-free block of length 2 with the one-state operator. -/
def w_blkB : FwBlock ℚ := ⟨2, w_tree1, w_tmA, none, fun _ _ => 1, 1⟩

/-- A two-time model over the rationals. -/
def w_model : ArgModel ℚ := ⟨2, fun _ => 0, 1, 0, 1/10, 5⟩

/- ====================================================================
   Theorems
   ==================================================================== -/

theorem calc_emissions_go_eq_slow_go (E : ExtC α) (tree : LocalTree)
    (model : ArgModel α) (seqs : Nat → Nat → DNAb) (seqlen : Nat)
    (invariant : Nat → Bool) (newleaf : Nat) :
    ∀ (states : List StateP) (j : Nat) (tree2 : LocalTree) (pn : Int)
      (table : Nat → Nat → Nat → α) (emit : Nat → Nat → α),
      calc_emissions_go E tree model seqs seqlen invariant newleaf states j tree2 pn table emit =
      calc_emissions_slow_go E tree model seqs seqlen invariant newleaf states j tree2 table emit := by
  intro states
  induction states with
  | nil => intro j tree2 pn table emit; rfl
  | cons st rest ih =>
    intro j tree2 pn table emit
    rw [calc_emissions_go, calc_emissions_slow_go]
    exact ih (j + 1) _ _ _ _

/-- C1: for every states set, local tree, sequences and model, the
external-threading emission computation calc_emissions and the slow reference
calc_emissions_slow agree at every site i and state index j within relative
tolerance 1e-4 or absolute tolerance 1e-12 (in this source snapshot they agree
exactly: the dirty-set fast path of calc_emissions is commented out, so both
run the full postorder at every state). -/
theorem C1_calc_emissions_agrees_with_slow (E : ExtC α) (states : List StateP)
    (tree : LocalTree) (seqs : Nat → Nat → DNAb) (nseqs seqlen : Nat)
    (model : ArgModel α) (i j : Nat) :
    fequal (calc_emissions E states tree seqs nseqs seqlen model i j)
      (calc_emissions_slow E states tree seqs nseqs seqlen model i j)
      (1 / 10000) (1 / 10 ^ 12) := by
  have h : calc_emissions E states tree seqs nseqs seqlen model =
      calc_emissions_slow E states tree seqs nseqs seqlen model := by
    unfold calc_emissions calc_emissions_slow
    exact calc_emissions_go_eq_slow_go E tree model seqs seqlen _ _ states 0 tree (-1) _ _
  rw [fequal, h]
  left
  simp only [sub_self, abs_zero]
  positivity

theorem fequal_of_eq {x y rel eps : α} (h : x = y) (heps : 0 ≤ eps) :
    fequal x y rel eps :=
  Or.inl (by rw [h, sub_self, abs_zero]; exact heps)

theorem fast_raw_eq_slow_raw (m : TransMatrix α) (tree : LocalTree)
    (ntimes : Nat) (states : List StateP) (col1 col1' emit2 : Nat → α)
    (hcol : ∀ j, j < states.length → col1 j = col1' j)
    (Ht : states_times_ok states ntimes)
    (He : enum_ok m tree states ntimes) (k : Nat) (hk : k < states.length) :
    fast_col_raw m tree ntimes states col1 emit2 k =
      slow_col_raw m tree states col1' emit2 k := by
  obtain ⟨hage2, hrun, hmem⟩ := He k hk
  unfold fast_col_raw slow_col_raw
  dsimp only
  congr 1
  have key : ∀ j ∈ Finset.range states.length,
      col1' j * m.get tree states j k =
        col1' j * fb_tmatrix m (block_minage m.internal tree)
            (states.getD j (0, 0)).2 (states.getD k (0, 0)).2 +
          (if (states.getD j (0, 0)).1 = (states.getD k (0, 0)).1 then
            col1' j * fb_tmatrix2 m tree states (block_minage m.internal tree)
              (states.getD j (0, 0)).2 k
           else 0) := by
    intro j _
    unfold TransMatrix.get fb_tmatrix fb_tmatrix2
    dsimp only
    by_cases hnode : (states.getD j (0, 0)).1 = (states.getD k (0, 0)).1
    · rw [if_pos hnode, if_pos hnode]; ring
    · rw [if_neg hnode, if_neg hnode]; ring
  rw [Finset.sum_congr rfl key, Finset.sum_add_distrib]
  have p1 : fb_tmatrix_fgroups m states (block_minage m.internal tree) ntimes col1
        (states.getD k (0, 0)).2 =
      Finset.sum (Finset.range states.length) (fun j =>
        col1' j * fb_tmatrix m (block_minage m.internal tree)
          (states.getD j (0, 0)).2 (states.getD k (0, 0)).2) := by
    unfold fb_tmatrix_fgroups fb_fgroups
    simp only [Finset.mul_sum]
    calc
      Finset.sum (Finset.range (ntimes - 1)) (fun a =>
          Finset.sum ((Finset.range states.length).filter
            (fun j => (states.getD j (0, 0)).2 = a))
            (fun j => fb_tmatrix m (block_minage m.internal tree) a
              (states.getD k (0, 0)).2 * col1 j)) =
        Finset.sum (Finset.range (ntimes - 1)) (fun a =>
          Finset.sum ((Finset.range states.length).filter
            (fun j => (states.getD j (0, 0)).2 = a))
            (fun j => col1' j * fb_tmatrix m (block_minage m.internal tree)
              (states.getD j (0, 0)).2 (states.getD k (0, 0)).2)) := by
        refine Finset.sum_congr rfl fun a _ => Finset.sum_congr rfl fun j hj => ?_
        obtain ⟨hj1, hj2⟩ := Finset.mem_filter.mp hj
        rw [hj2, hcol j (Finset.mem_range.mp hj1), mul_comm]
      _ = Finset.sum (Finset.range states.length) (fun j =>
            col1' j * fb_tmatrix m (block_minage m.internal tree)
              (states.getD j (0, 0)).2 (states.getD k (0, 0)).2) :=
        Finset.sum_fiberwise_of_maps_to
          (fun j hj => Finset.mem_range.mpr (Ht j (Finset.mem_range.mp hj))) _
  have p2 : Finset.sum (Finset.Icc
        (ages1 tree (block_minage m.internal tree) (states.getD k (0, 0)).1)
        (ages2 tree m.internal (states_maxtime states) (states.getD k (0, 0)).1))
        (fun a => fb_tmatrix2 m tree states (block_minage m.internal tree) a k *
          col1 ((state_lookup states (states.getD k (0, 0)).1
            (ages1 tree (block_minage m.internal tree) (states.getD k (0, 0)).1)).toNat +
            (a - ages1 tree (block_minage m.internal tree) (states.getD k (0, 0)).1))) =
      Finset.sum (Finset.range states.length) (fun j =>
        if (states.getD j (0, 0)).1 = (states.getD k (0, 0)).1 then
          col1' j * fb_tmatrix2 m tree states (block_minage m.internal tree)
            (states.getD j (0, 0)).2 k
        else 0) := by
    rw [← Finset.sum_filter]
    refine Eq.symm (Finset.sum_nbij' (fun j => (states.getD j (0, 0)).2)
      (fun a => (state_lookup states (states.getD k (0, 0)).1
        (ages1 tree (block_minage m.internal tree) (states.getD k (0, 0)).1)).toNat +
        (a - ages1 tree (block_minage m.internal tree) (states.getD k (0, 0)).1))
      ?_ ?_ ?_ ?_ ?_)
    · intro j hj
      obtain ⟨hj1, hj2⟩ := Finset.mem_filter.mp hj
      obtain ⟨hb1, hb2, _⟩ := hmem j (Finset.mem_range.mp hj1) hj2
      exact Finset.mem_Icc.mpr ⟨hb1, hb2⟩
    · intro a ha
      obtain ⟨ha1, ha2⟩ := Finset.mem_Icc.mp ha
      obtain ⟨hlt, hgd⟩ := hrun (a - ages1 tree (block_minage m.internal tree)
        (states.getD k (0, 0)).1) (Nat.sub_le_sub_right ha2 _)
      refine Finset.mem_filter.mpr ⟨Finset.mem_range.mpr hlt, ?_⟩
      rw [hgd]
    · intro j hj
      obtain ⟨hj1, hj2⟩ := Finset.mem_filter.mp hj
      exact (hmem j (Finset.mem_range.mp hj1) hj2).2.2.symm
    · intro a ha
      obtain ⟨ha1, ha2⟩ := Finset.mem_Icc.mp ha
      obtain ⟨hlt, hgd⟩ := hrun (a - ages1 tree (block_minage m.internal tree)
        (states.getD k (0, 0)).1) (Nat.sub_le_sub_right ha2 _)
      dsimp only
      rw [hgd]
      exact Nat.add_sub_cancel' ha1
    · intro j hj
      obtain ⟨hj1, hj2⟩ := Finset.mem_filter.mp hj
      obtain ⟨hb1, hb2, hidx⟩ := hmem j (Finset.mem_range.mp hj1) hj2
      rw [← hidx, hcol j (Finset.mem_range.mp hj1), mul_comm]
  rw [p1, p2]

theorem fast_step_eq_slow_step (m : TransMatrix α) (tree : LocalTree)
    (ntimes : Nat) (states : List StateP) (col1 col1' emit2 : Nat → α)
    (hcol : ∀ j, j < states.length → col1 j = col1' j)
    (Ht : states_times_ok states ntimes)
    (He : enum_ok m tree states ntimes) (k : Nat) (hk : k < states.length) :
    fast_col_step m tree ntimes states col1 emit2 k =
      slow_col_step m tree states col1' emit2 k := by
  unfold fast_col_step slow_col_step normalize_col
  rw [fast_raw_eq_slow_raw m tree ntimes states col1 col1' emit2 hcol Ht He k hk,
    Finset.sum_congr rfl (fun j hj =>
      fast_raw_eq_slow_raw m tree ntimes states col1 col1' emit2 hcol Ht He j
        (Finset.mem_range.mp hj))]

theorem forward_cols_fast_eq_slow (m : TransMatrix α) (tree : LocalTree)
    (ntimes : Nat) (states : List StateP) (col0 : Nat → α)
    (emit : Nat → Nat → α) (Ht : states_times_ok states ntimes)
    (He : enum_ok m tree states ntimes) :
    ∀ (i k : Nat), k < states.length →
      forward_block_cols (fast_col_step m tree ntimes states) col0 emit i k =
        forward_block_cols (slow_col_step m tree states) col0 emit i k := by
  intro i
  induction i with
  | zero => intro k hk; rfl
  | succ i ih =>
    intro k hk
    rw [forward_block_cols, forward_block_cols]
    exact fast_step_eq_slow_step m tree ntimes states _ _ _
      (fun j hj => ih j hj) Ht He k hk

/-- C2: for every block whose first forward column is pre-populated, the
factored within-block step (arghmm_forward_block) and the full S-by-S
transition-matrix step (arghmm_forward_block_slow) started from the same first
column agree at every subsequent column q and state s within relative
tolerance 1e-4 or absolute tolerance 1e-12 (here exactly), given the
enumeration-order invariant of the state set and state times inside the
transition tables. -/
theorem C2_forward_block_fast_slow_agree (m : TransMatrix α) (tree : LocalTree)
    (ntimes blocklen : Nat) (states : List StateP) (emit : Nat → Nat → α)
    (fw : Nat → Nat → α) (p : Nat) (hn : 0 < states.length)
    (Ht : states_times_ok states ntimes) (He : enum_ok m tree states ntimes)
    (q s : Nat) (hq1 : p < q) (hq2 : q < p + blocklen)
    (hs : s < states.length) :
    fequal (arghmm_forward_block m tree ntimes blocklen states emit fw p q s)
      (arghmm_forward_block_slow m tree blocklen states emit fw p q s)
      (1 / 10000) (1 / 10 ^ 12) := by
  have hne : ¬(m.internal = true ∧ states.length = 0) := by
    rintro ⟨-, h0⟩; omega
  unfold arghmm_forward_block arghmm_forward_block_slow
  rw [if_neg hne]
  unfold fill_columns
  rw [if_pos ⟨hq1, hq2⟩, if_pos ⟨hq1, hq2⟩]
  exact fequal_of_eq
    (forward_cols_fast_eq_slow m tree ntimes states (fw p) emit Ht He (q - p) s hs)
    (by positivity)

theorem C2_forward_block_fast_slow_agree_witness :
    (0 < w_states2.length) ∧ states_times_ok w_states2 3 ∧
      enum_ok w_tm1 w_tree1 w_states2 3 ∧
      fequal
        (arghmm_forward_block w_tm1 w_tree1 3 2 w_states2 (fun _ _ => 1)
          (fun _ s => if s < 2 then 1 / 2 else 0) 0 1 0)
        (arghmm_forward_block_slow w_tm1 w_tree1 2 w_states2 (fun _ _ => 1)
          (fun _ s => if s < 2 then 1 / 2 else 0) 0 1 0)
        (1 / 10000) (1 / 10 ^ 12) :=
  ⟨by decide, by decide, by decide,
   C2_forward_block_fast_slow_agree w_tm1 w_tree1 3 2 w_states2 (fun _ _ => 1)
     (fun _ s => if s < 2 then 1 / 2 else 0) 0 (by decide) (by decide) (by decide)
     1 0 (by decide) (by decide) (by decide)⟩

theorem foldl_max_le_init (f : Nat → α) :
    ∀ (l : List Nat) (a : α), a ≤ l.foldl (fun m k => max m (f k)) a := by
  intro l
  induction l with
  | nil => intro a; exact le_refl a
  | cons x xs ih =>
    intro a
    exact le_trans (le_max_left a (f x)) (ih (max a (f x)))

theorem foldl_max_mem_le (f : Nat → α) :
    ∀ (l : List Nat) (a : α) (k : Nat), k ∈ l →
      f k ≤ l.foldl (fun m k => max m (f k)) a := by
  intro l
  induction l with
  | nil => intro a k hk; cases hk
  | cons x xs ih =>
    intro a k hk
    rcases List.mem_cons.mp hk with h | h
    · subst h
      exact le_trans (le_max_right a (f k)) (foldl_max_le_init f xs _)
    · exact ih _ k h

theorem le_max_array (f : Nat → α) (n k : Nat) (hk : k < n) :
    f k ≤ max_array f n :=
  foldl_max_mem_le f (List.range n) (f 0) k (List.mem_range.mpr hk)

theorem max_array_pos_of_sum_pos (f : Nat → α) (n : Nat)
    (h : 0 < Finset.sum (Finset.range n) f) : 0 < max_array f n := by
  by_contra hle
  push_neg at hle
  have hall : Finset.sum (Finset.range n) f ≤ 0 :=
    Finset.sum_nonpos (fun k hk =>
      le_trans (le_max_array f n k (Finset.mem_range.mp hk)) hle)
  linarith

/-- C3: after every within-block forward column step and every cross-block
switch step, the produced column sums to 1 (within 1e-9; here exactly),
whenever the pre-normalization mass of the column is positive.  For the switch
step the positive mass also makes the positivity assertion pass, so the step
returns a column. -/
theorem C3_columns_sum_to_one (E : ExtC α) (m : TransMatrix α)
    (msw : TransMatrixSwitch α) (tree : LocalTree) (ntimes : Nat)
    (states : List StateP) (col1 colsw emitb emitsw : Nat → α)
    (hb : 0 < Finset.sum (Finset.range states.length)
      (fast_col_raw m tree ntimes states col1 emitb))
    (hsw : 0 < Finset.sum (Finset.range (max msw.nstates2 1))
      (switch_col_raw E msw colsw emitsw)) :
    |Finset.sum (Finset.range states.length)
        (fast_col_step m tree ntimes states col1 emitb) - 1| ≤ 1 / 10 ^ 9 ∧
      ∃ out, arghmm_forward_switch E msw colsw emitsw = some out ∧
        |Finset.sum (Finset.range (max msw.nstates2 1)) out - 1| ≤ 1 / 10 ^ 9 := by
  constructor
  · unfold fast_col_step normalize_col
    rw [← Finset.sum_div, div_self (ne_of_gt hb), sub_self, abs_zero]
    positivity
  · have htop := max_array_pos_of_sum_pos _ _ hsw
    refine ⟨fun k => if k < max msw.nstates2 1 then
        switch_col_raw E msw colsw emitsw k /
          Finset.sum (Finset.range (max msw.nstates2 1))
            (switch_col_raw E msw colsw emitsw)
      else switch_col_raw E msw colsw emitsw k, ?_, ?_⟩
    · unfold arghmm_forward_switch
      rw [if_neg (not_le.mpr htop)]
    · have hcong : ∀ k ∈ Finset.range (max msw.nstates2 1),
          (if k < max msw.nstates2 1 then
            switch_col_raw E msw colsw emitsw k /
              Finset.sum (Finset.range (max msw.nstates2 1))
                (switch_col_raw E msw colsw emitsw)
           else switch_col_raw E msw colsw emitsw k) =
            switch_col_raw E msw colsw emitsw k /
              Finset.sum (Finset.range (max msw.nstates2 1))
                (switch_col_raw E msw colsw emitsw) :=
        fun k hk => if_pos (Finset.mem_range.mp hk)
      rw [Finset.sum_congr rfl hcong, ← Finset.sum_div, div_self (ne_of_gt hsw),
        sub_self, abs_zero]
      positivity

theorem C3_columns_sum_to_one_witness :
    (0 < Finset.sum (Finset.range w_states1.length)
        (fast_col_raw w_tm1 w_tree1 2 w_states1 (fun _ => (1 : ℚ)) (fun _ => 1))) ∧
      (0 < Finset.sum (Finset.range (max w_sw1.nstates2 1))
        (switch_col_raw w_extq w_sw1 (fun _ => 1) (fun _ => 1))) ∧
      (|Finset.sum (Finset.range w_states1.length)
          (fast_col_step w_tm1 w_tree1 2 w_states1 (fun _ => (1 : ℚ)) (fun _ => 1)) - 1| ≤
          1 / 10 ^ 9 ∧
        ∃ out, arghmm_forward_switch w_extq w_sw1 (fun _ => 1) (fun _ => 1) = some out ∧
          |Finset.sum (Finset.range (max w_sw1.nstates2 1)) out - 1| ≤ 1 / 10 ^ 9) := by
  have h1 : (0 : ℚ) < Finset.sum (Finset.range w_states1.length)
      (fast_col_raw w_tm1 w_tree1 2 w_states1 (fun _ => (1 : ℚ)) (fun _ => 1)) := by
    simp only [w_states1, w_tm1, w_tree1, fast_col_raw, fb_tmatrix_fgroups, fb_fgroups,
      fb_tmatrix, fb_tmatrix2, ages1, ages2, states_maxtime, state_lookup, block_minage,
      Finset.sum_filter, Finset.sum_range_succ, Finset.sum_range_zero, Finset.Icc_self,
      Finset.sum_singleton, List.length_cons, List.length_nil]
    norm_num
  have h2 : (0 : ℚ) < Finset.sum (Finset.range (max w_sw1.nstates2 1))
      (switch_col_raw w_extq w_sw1 (fun _ => 1) (fun _ => 1)) := by
    simp only [w_sw1, w_extq, switch_col_raw, switch_determ_scatter, max_self]
    rw [show List.range 1 = [0] from rfl]
    norm_num [List.foldl_cons, List.foldl_nil, Function.update,
      Finset.sum_range_succ, Finset.sum_range_zero]
  exact ⟨h1, h2,
    C3_columns_sum_to_one w_extq w_tm1 w_sw1 w_tree1 2 w_states1
      (fun _ => (1 : ℚ)) (fun _ => 1) (fun _ => 1) (fun _ => 1) h1 h2⟩

theorem scatter_foldl_eval (w : Nat → α) (key : Nat → Nat) (P : Nat → Prop)
    [DecidablePred P] :
    ∀ (l : List Nat) (c0 : Nat → α) (k : Nat),
      (l.foldl (fun c j => if P j then
          Function.update c (key j) (c (key j) + w j) else c) c0) k =
        c0 k + ((l.filter (fun j => decide (P j ∧ key j = k))).map w).sum := by
  intro l
  induction l with
  | nil => intro c0 k; simp
  | cons x xs ih =>
    intro c0 k
    rw [List.foldl_cons]
    by_cases hP : P x
    · rw [if_pos hP, ih]
      by_cases hkey : key x = k
      · subst hkey
        rw [List.filter_cons_of_pos (by simp [hP]), List.map_cons, List.sum_cons,
          Function.update_same]
        ring
      · rw [Function.update_noteq (fun h => hkey h.symm),
          List.filter_cons_of_neg (by simp [hkey]), ]
    · rw [if_neg hP, ih, List.filter_cons_of_neg (by simp [hP])]

theorem list_filter_ext (p q : Nat → Bool) (h : ∀ a, p a = q a) :
    ∀ l : List Nat, l.filter p = l.filter q := by
  intro l
  induction l with
  | nil => rfl
  | cons x xs ih => simp only [List.filter_cons, h x, ih]

/-- C5: the cross-block switch step: every source j distinct from recombsrc and
recoalsrc with determ[j] ≥ 0 contributes col1[j]·exp(determprob[j]) to
col2[determ[j]]; recombsrc (when ≥ 0) contributes col1[recombsrc]·exp(recombrow[k])
to every destination with a finite recombrow entry, symmetrically for
recoalsrc; each entry is multiplied by the new block's first emission column,
the maximum entry is asserted positive (none on failure), and the column is
normalized. -/
theorem C5_forward_switch_structure (E : ExtC α) (msw : TransMatrixSwitch α)
    (col1 emit : Nat → α) (hd : ∀ j, -1 ≤ msw.determ j) :
    (arghmm_forward_switch E msw col1 emit = none ↔
      max_array (switch_col_raw E msw col1 emit) (max msw.nstates2 1) ≤ 0) ∧
    ∀ out, arghmm_forward_switch E msw col1 emit = some out →
      ∀ k, k < max msw.nstates2 1 →
        out k = ((((List.range (max msw.nstates1 1)).filter
              (fun (j : Nat) => decide ((j : Int) ≠ msw.recombsrc ∧ (j : Int) ≠ msw.recoalsrc ∧
                msw.determ j = (k : Int)))).map
              (fun j => col1 j * E.rexp (msw.determprob j))).sum +
            (if msw.recombsrc ≠ -1 ∧ (msw.recombrow k).isSome
             then col1 msw.recombsrc.toNat * E.rexp ((msw.recombrow k).getD 0) else 0) +
            (if msw.recoalsrc ≠ -1 ∧ (msw.recoalrow k).isSome
             then col1 msw.recoalsrc.toNat * E.rexp ((msw.recoalrow k).getD 0) else 0)) *
            emit k /
          Finset.sum (Finset.range (max msw.nstates2 1))
            (switch_col_raw E msw col1 emit) := by
  constructor
  · by_cases htop : max_array (switch_col_raw E msw col1 emit) (max msw.nstates2 1) ≤ 0 <;>
      simp [arghmm_forward_switch, htop]
  · intro out hout k hk
    unfold arghmm_forward_switch at hout
    by_cases htop : max_array (switch_col_raw E msw col1 emit) (max msw.nstates2 1) ≤ 0
    · rw [if_pos htop] at hout; cases hout
    · rw [if_neg htop] at hout
      have hout2 := Option.some.inj hout
      rw [← hout2]
      dsimp only
      rw [if_pos hk]
      have hbase : switch_determ_scatter E msw col1 (max msw.nstates1 1) k =
          (((List.range (max msw.nstates1 1)).filter
            (fun (j : Nat) => decide ((j : Int) ≠ msw.recombsrc ∧ (j : Int) ≠ msw.recoalsrc ∧
              msw.determ j = (k : Int)))).map
            (fun j => col1 j * E.rexp (msw.determprob j))).sum := by
        unfold switch_determ_scatter
        rw [scatter_foldl_eval (fun j => col1 j * E.rexp (msw.determprob j))
          (fun j => (msw.determ j).toNat)
          (fun (j : Nat) => (j : Int) ≠ msw.recombsrc ∧ (j : Int) ≠ msw.recoalsrc ∧
            msw.determ j ≠ -1) (List.range (max msw.nstates1 1)) (fun _ => 0) k]
        have hpred : ∀ a : Nat,
            (decide (((a : Int) ≠ msw.recombsrc ∧ (a : Int) ≠ msw.recoalsrc ∧
              msw.determ a ≠ -1) ∧ (msw.determ a).toNat = k)) =
            (decide ((a : Int) ≠ msw.recombsrc ∧ (a : Int) ≠ msw.recoalsrc ∧
              msw.determ a = (k : Int))) := by
          intro a
          apply decide_eq_decide.mpr
          have ha := hd a
          constructor
          · rintro ⟨⟨h1, h2, h3⟩, h4⟩
            exact ⟨h1, h2, by omega⟩
          · rintro ⟨h1, h2, h3⟩
            exact ⟨⟨h1, h2, by omega⟩, by omega⟩
        rw [list_filter_ext _ _ hpred (List.range (max msw.nstates1 1))]
        rw [zero_add]
      simp only [switch_col_raw]
      rw [if_pos hk, hbase]

theorem C5_forward_switch_structure_witness :
    (∀ j, -1 ≤ w_sw1.determ j) ∧
      ((arghmm_forward_switch w_extq w_sw1 (fun _ => (1 : ℚ)) (fun _ => 1) = none ↔
        max_array (switch_col_raw w_extq w_sw1 (fun _ => (1 : ℚ)) (fun _ => 1))
          (max w_sw1.nstates2 1) ≤ 0) ∧
      ∀ out, arghmm_forward_switch w_extq w_sw1 (fun _ => (1 : ℚ)) (fun _ => 1) = some out →
        ∀ k, k < max w_sw1.nstates2 1 →
          out k = ((((List.range (max w_sw1.nstates1 1)).filter
                (fun (j : Nat) => decide ((j : Int) ≠ w_sw1.recombsrc ∧
                  (j : Int) ≠ w_sw1.recoalsrc ∧ w_sw1.determ j = (k : Int)))).map
                (fun j => (fun _ => (1 : ℚ)) j * w_extq.rexp (w_sw1.determprob j))).sum +
              (if w_sw1.recombsrc ≠ -1 ∧ (w_sw1.recombrow k).isSome
               then (fun _ => (1 : ℚ)) w_sw1.recombsrc.toNat *
                 w_extq.rexp ((w_sw1.recombrow k).getD 0) else 0) +
              (if w_sw1.recoalsrc ≠ -1 ∧ (w_sw1.recoalrow k).isSome
               then (fun _ => (1 : ℚ)) w_sw1.recoalsrc.toNat *
                 w_extq.rexp ((w_sw1.recoalrow k).getD 0) else 0)) *
              (fun _ => (1 : ℚ)) k /
            Finset.sum (Finset.range (max w_sw1.nstates2 1))
              (switch_col_raw w_extq w_sw1 (fun _ => (1 : ℚ)) (fun _ => 1))) :=
  ⟨by intro j; show (-1 : Int) ≤ 0; decide,
   C5_forward_switch_structure w_extq w_sw1 (fun _ => (1 : ℚ)) (fun _ => 1)
     (by intro j; show (-1 : Int) ≤ 0; decide)⟩

/-- C10: the cross-block switch step and the stochastic boundary traceback step
clamp a zero-size state space to size one: with nstates1 = nstates2 = 0,
arghmm_forward_switch and sample_hmm_posterior_step compute exactly what they
compute with both sizes set to 1, i.e. they operate on a single column entry. -/
theorem C10_zero_state_space_clamped (E : ExtC α) (msw : TransMatrixSwitch α)
    (col1 emit : Nat → α) (s2 : Nat) (h1 : msw.nstates1 = 0)
    (h2 : msw.nstates2 = 0) :
    arghmm_forward_switch E msw col1 emit =
      arghmm_forward_switch E
        ⟨1, 1, msw.recombsrc, msw.recoalsrc, msw.determ, msw.determprob,
         msw.recombrow, msw.recoalrow, msw.sget, msw.sgetlog⟩ col1 emit ∧
      sample_hmm_posterior_step E msw col1 s2 =
        sample_hmm_posterior_step E
          ⟨1, msw.nstates2, msw.recombsrc, msw.recoalsrc, msw.determ, msw.determprob,
           msw.recombrow, msw.recoalrow, msw.sget, msw.sgetlog⟩ col1 s2 := by
  obtain ⟨n1, n2, rs, cs, dt, dp, rr, cr, sg, sl⟩ := msw
  dsimp only at h1 h2
  subst h1
  subst h2
  exact ⟨rfl, rfl⟩

theorem C10_zero_state_space_clamped_witness :
    (w_sw0.nstates1 = 0) ∧ (w_sw0.nstates2 = 0) ∧
      (arghmm_forward_switch w_extq w_sw0 (fun _ => (1 : ℚ)) (fun _ => 1) =
        arghmm_forward_switch w_extq
          ⟨1, 1, w_sw0.recombsrc, w_sw0.recoalsrc, w_sw0.determ, w_sw0.determprob,
           w_sw0.recombrow, w_sw0.recoalrow, w_sw0.sget, w_sw0.sgetlog⟩
          (fun _ => (1 : ℚ)) (fun _ => 1) ∧
        sample_hmm_posterior_step w_extq w_sw0 (fun _ => (1 : ℚ)) 0 =
          sample_hmm_posterior_step w_extq
            ⟨1, w_sw0.nstates2, w_sw0.recombsrc, w_sw0.recoalsrc, w_sw0.determ,
             w_sw0.determprob, w_sw0.recombrow, w_sw0.recoalrow, w_sw0.sget,
             w_sw0.sgetlog⟩ (fun _ => (1 : ℚ)) 0) :=
  ⟨rfl, rfl,
   C10_zero_state_space_clamped w_extq w_sw0 (fun _ => (1 : ℚ)) (fun _ => 1) 0 rfl rfl⟩

theorem calc_emissions_internal_invariant_value (E : ExtC α)
    (states : List StateP) (tree : LocalTree) (seqs : Nat → Nat → DNAb)
    (nseqs seqlen : Nat) (model : ArgModel α) (i j : Nat)
    (hlen : states.length ≠ 0)
    (hinv : find_invariant_sites seqs nseqs seqlen i = true) :
    calc_emissions_internal E states tree seqs nseqs seqlen model i j =
      (1 / 4) * E.rexp (-(model.mu *
        max (internal_state_treelen tree model (states.getD j (0, 0)))
          model.mintime)) := by
  unfold calc_emissions_internal
  rw [if_neg hlen]
  simp only [hinv, if_true]

/-- C4 counterexample: at an invariant site the emission column produced by
calc_emissions_internal is not constant across admissible states: the states
(1,1) and (1,2) differ only in coalescence time, yet their emissions at the
invariant site differ, refuting the claimed constant column governed by a
single tree length. -/
theorem C4_invariant_column_constant_counterexample :
    calc_emissions_internal
        (⟨Real.exp, Real.log, fun _ _ => 0, fun _ => [], fun _ => 0,
          fun t _ _ => t, fun t _ => t, fun _ _ _ => [], fun _ _ _ _ => 0,
          fun m _ => m⟩ : ExtC ℝ)
        [(1, 1), (1, 2)] w_tree3 (fun _ _ => DNAb.A) 2 1
        ⟨4, fun t => (t : ℝ), 1, 0, 1 / 10, 5⟩ 0 0 ≠
      calc_emissions_internal
        (⟨Real.exp, Real.log, fun _ _ => 0, fun _ => [], fun _ => 0,
          fun t _ _ => t, fun t _ => t, fun _ _ _ => [], fun _ _ _ _ => 0,
          fun m _ => m⟩ : ExtC ℝ)
        [(1, 1), (1, 2)] w_tree3 (fun _ _ => DNAb.A) 2 1
        ⟨4, fun t => (t : ℝ), 1, 0, 1 / 10, 5⟩ 0 1 := by
  rw [calc_emissions_internal_invariant_value _ _ _ _ _ _ _ 0 0
      (by decide) (by decide),
    calc_emissions_internal_invariant_value _ _ _ _ _ _ _ 0 1
      (by decide) (by decide)]
  have h1 : internal_state_treelen w_tree3
      (⟨4, fun t => (t : ℝ), 1, 0, 1 / 10, 5⟩ : ArgModel ℝ)
      ([((1 : Nat), (1 : Nat)), (1, 2)].getD 0 (0, 0)) = 2 := by
    simp [internal_state_treelen, subtree_len, treelen_loop, LocalTree.get_dist,
      LocalNode.is_leaf, w_tree3]
    norm_num [max_eq_left]
  have h2 : internal_state_treelen w_tree3
      (⟨4, fun t => (t : ℝ), 1, 0, 1 / 10, 5⟩ : ArgModel ℝ)
      ([((1 : Nat), (1 : Nat)), (1, 2)].getD 1 (0, 0)) = 4 := by
    simp [internal_state_treelen, subtree_len, treelen_loop, LocalTree.get_dist,
      LocalNode.is_leaf, w_tree3]
    norm_num [max_eq_left]
  rw [h1, h2]
  have hm1 : max (2 : ℝ) (1 / 10) = 2 := max_eq_left (by norm_num)
  have hm2 : max (4 : ℝ) (1 / 10) = 4 := max_eq_left (by norm_num)
  rw [hm1, hm2]
  intro hcontra
  have heq := mul_left_cancel₀ (by norm_num : (1 / 4 : ℝ) ≠ 0) hcontra
  dsimp only at heq
  have hlt : Real.exp (-((1 : ℝ) * 4)) < Real.exp (-((1 : ℝ) * 2)) := by
    rw [Real.exp_lt_exp]; norm_num
  rw [heq] at hlt
  exact lt_irrefl _ hlt

/-- C4 (amended): at every invariant site the emission equals
¼·exp(−μ·max(treelen, mintime)) where treelen is the floored branch-length
sum of the tree actually used for the state: the tree passed to
likelihood_sites (the tree augmented by the candidate branch), and for
calc_emissions_internal the per-state augmented tree length.  The column at an
invariant site is therefore constant only across states of equal augmented
tree length, not across all states. -/
theorem C4_invariant_site_emission_formula (E : ExtC α) (tree : LocalTree)
    (model : ArgModel α) (seqs : Nat → Nat → DNAb) (seqlen statei : Nat)
    (inv : Nat → Bool) (table : Nat → Nat → Nat → α) (pn nn : Int)
    (states : List StateP) (nseqs i j : Nat) (hinv : inv i = true)
    (hinv2 : find_invariant_sites seqs nseqs seqlen i = true)
    (hlen : states.length ≠ 0) :
    (likelihood_sites E tree model seqs seqlen statei (some inv) table pn nn).1 i =
      (1 / 4) * E.rexp (-(model.mu *
        max (likelihood_sites_treelen tree model) model.mintime)) ∧
      calc_emissions_internal E states tree seqs nseqs seqlen model i j =
        (1 / 4) * E.rexp (-(model.mu *
          max (internal_state_treelen tree model (states.getD j (0, 0)))
            model.mintime)) := by
  constructor
  · unfold likelihood_sites
    simp only [hinv, if_true]
  · exact calc_emissions_internal_invariant_value E states tree seqs nseqs
      seqlen model i j hlen hinv2

theorem C4_invariant_site_emission_formula_witness :
    ((fun _ : Nat => true) 0 = true) ∧
      (find_invariant_sites (fun _ _ => DNAb.A) 2 1 0 = true) ∧
      (w_states1.length ≠ 0) ∧
      ((likelihood_sites w_extq w_tree3 ⟨4, fun _ => 0, 1, 0, 1 / 10, 5⟩
          (fun _ _ => DNAb.A) 1 0 (some (fun _ => true)) (fun _ _ _ => 0)
          (-1) (-1)).1 0 =
        (1 / 4) * w_extq.rexp (-((⟨4, fun _ => 0, 1, 0, 1 / 10, 5⟩ :
            ArgModel ℚ).mu *
          max (likelihood_sites_treelen w_tree3 ⟨4, fun _ => 0, 1, 0, 1 / 10, 5⟩)
            (⟨4, fun _ => 0, 1, 0, 1 / 10, 5⟩ : ArgModel ℚ).mintime)) ∧
        calc_emissions_internal w_extq w_states1 w_tree3 (fun _ _ => DNAb.A) 2 1
            ⟨4, fun _ => 0, 1, 0, 1 / 10, 5⟩ 0 0 =
          (1 / 4) * w_extq.rexp (-((⟨4, fun _ => 0, 1, 0, 1 / 10, 5⟩ :
              ArgModel ℚ).mu *
            max (internal_state_treelen w_tree3 ⟨4, fun _ => 0, 1, 0, 1 / 10, 5⟩
              (w_states1.getD 0 (0, 0)))
              (⟨4, fun _ => 0, 1, 0, 1 / 10, 5⟩ : ArgModel ℚ).mintime))) :=
  ⟨rfl, by decide, by decide,
   C4_invariant_site_emission_formula w_extq w_tree3 ⟨4, fun _ => 0, 1, 0, 1 / 10, 5⟩
     (fun _ _ => DNAb.A) 1 0 (fun _ => true) (fun _ _ _ => 0) (-1) (-1)
     w_states1 2 0 0 rfl (by decide) (by decide)⟩

/-- C6: at a block boundary without a switch operator, the stochastic
traceback assigns path[pos-1] by the within-block step as a single-column step
(blocklen 2: sampled from fw[pos-1] combined with the transition into
path[pos]), but the Viterbi traceback passes n = 1 to max_hmm_posterior whose
loop starts at n-2 = -1 and performs no iterations, leaving path[pos-1]
unassigned — contradicting the claimed symmetric single-column maximization. -/
theorem C6_viterbi_no_switch_boundary_noop (E : ExtC α) (states : List StateP)
    (m : TransMatrix α) (tree : LocalTree) (fw : Nat → Nat → α) (base : Nat)
    (path : Nat → Nat) :
    max_hmm_posterior E 1 states m fw base path = path ∧
    (sample_hmm_posterior E 2 tree states m fw base path).1 =
      Function.update path base
        (E.sample (fun j => if j < max states.length 1 then
          fw base j * m.get tree states j (path (base + 1)) else 0)
          (max states.length 1)) := by
  exact ⟨rfl, rfl⟩

theorem shp_lnl_zero (E : ExtC α) (blocklen : Nat) (tree : LocalTree)
    (states : List StateP) (m : TransMatrix α) (fw : Nat → Nat → α)
    (base : Nat) (path : Nat → Nat) :
    (sample_hmm_posterior E blocklen tree states m fw base path).2 = 0 := by
  unfold sample_hmm_posterior
  match blocklen with
  | 0 => rfl
  | 1 => rfl
  | i + 2 => rfl

theorem shp_loop_writes_le (E : ExtC α) (tree : LocalTree)
    (states : List StateP) (m : TransMatrix α) (fw : Nat → Nat → α)
    (base : Nat) :
    ∀ (i : Nat) (path : Nat → Nat) (q : Nat), base + i < q →
      shp_loop E tree states m fw base i path q = path q := by
  intro i
  induction i with
  | zero =>
    intro path q hq
    unfold shp_loop shp_write
    exact Function.update_noteq (by omega) _ _
  | succ i ih =>
    intro path q hq
    unfold shp_loop
    rw [ih _ q (by omega)]
    unfold shp_write
    exact Function.update_noteq (by omega) _ _

theorem shp_writes_le (E : ExtC α) (blocklen : Nat) (tree : LocalTree)
    (states : List StateP) (m : TransMatrix α) (fw : Nat → Nat → α)
    (base : Nat) (path : Nat → Nat) (q : Nat)
    (hq : base + blocklen ≤ q + 1) :
    (sample_hmm_posterior E blocklen tree states m fw base path).1 q = path q := by
  unfold sample_hmm_posterior
  match blocklen, hq with
  | 0, hq => rfl
  | 1, hq => rfl
  | i + 2, hq => exact shp_loop_writes_le E tree states m fw base i path q (by omega)

theorem st_block_preserves_high (E : ExtC α) (model : ArgModel α)
    (internal : Bool) (fw : Nat → Nat → α) (start : Nat) (b : FwBlock α)
    (pos : Nat) (path : Nat → Nat) (lnl : α) (q : Nat)
    (hb1 : 1 ≤ b.blocklen) (hble : b.blocklen ≤ pos) (hq : pos ≤ q + 1) :
    (st_block E model internal fw start b pos path lnl).1 q = path q := by
  have hx1 : (pos - b.blocklen) + b.blocklen ≤ q + 1 := by omega
  unfold st_block
  dsimp only
  split
  · rename_i hgt
    have hx2 : (pos - b.blocklen - 1) + 2 ≤ q + 1 := by omega
    have hx3 : q ≠ pos - b.blocklen - 1 := by omega
    split
    · rename_i msw hmsw
      dsimp only
      rw [Function.update_noteq hx3]
      exact shp_writes_le E b.blocklen b.tree _ b.transmat fw (pos - b.blocklen)
        path q hx1
    · dsimp only
      rw [shp_writes_le E 2 b.tree _ b.transmat fw (pos - b.blocklen - 1) _ q hx2]
      exact shp_writes_le E b.blocklen b.tree _ b.transmat fw (pos - b.blocklen)
        path q hx1
  · dsimp only
    exact shp_writes_le E b.blocklen b.tree _ b.transmat fw (pos - b.blocklen)
      path q hx1

theorem st_block_lnl_noswitch (E : ExtC α) (model : ArgModel α)
    (internal : Bool) (fw : Nat → Nat → α) (start : Nat) (b : FwBlock α)
    (pos : Nat) (path : Nat → Nat) (lnl : α) (hsw : b.switch = none) :
    (st_block E model internal fw start b pos path lnl).2.1 = lnl := by
  unfold st_block
  rw [hsw]
  dsimp only
  split
  · rw [shp_lnl_zero, shp_lnl_zero, add_zero, add_zero]
  · rw [shp_lnl_zero, add_zero]

theorem st_block_pos (E : ExtC α) (model : ArgModel α) (internal : Bool)
    (fw : Nat → Nat → α) (start : Nat) (b : FwBlock α) (pos : Nat)
    (path : Nat → Nat) (lnl : α) :
    (st_block E model internal fw start b pos path lnl).2.2 = pos - b.blocklen := by
  unfold st_block
  dsimp only
  split
  · split <;> rfl
  · rfl

theorem st_loop_noswitch (E : ExtC α) (model : ArgModel α) (internal : Bool)
    (fw : Nat → Nat → α) (start : Nat) :
    ∀ (l : List (FwBlock α)) (pos : Nat) (path : Nat → Nat) (lnl : α),
      (∀ b ∈ l, b.switch = none) → (∀ b ∈ l, 1 ≤ b.blocklen) →
      (start + (l.map (fun b => b.blocklen)).sum ≤ pos) →
      (st_loop E model internal fw start l pos path lnl).2.1 = lnl ∧
      ∀ q, pos ≤ q + 1 →
        (st_loop E model internal fw start l pos path lnl).1 q = path q := by
  intro l
  induction l with
  | nil => intro pos path lnl _ _ _; exact ⟨rfl, fun q _ => rfl⟩
  | cons b rest ih =>
    intro pos path lnl hsw hbl hsum
    have hsum2 : start + ((rest.map (fun b => b.blocklen)).sum) ≤ pos - b.blocklen := by
      simp only [List.map_cons, List.sum_cons] at hsum
      omega
    have hble : b.blocklen ≤ pos := by
      simp only [List.map_cons, List.sum_cons] at hsum
      omega
    have hb1 : 1 ≤ b.blocklen := hbl b (List.mem_cons_self b rest)
    unfold st_loop
    dsimp only
    rw [st_block_pos, st_block_lnl_noswitch E model internal fw start b pos path lnl
      (hsw b (List.mem_cons_self b rest))]
    obtain ⟨ih1, ih2⟩ := ih (pos - b.blocklen)
      (st_block E model internal fw start b pos path lnl).1 lnl
      (fun x hx => hsw x (List.mem_cons_of_mem b hx))
      (fun x hx => hbl x (List.mem_cons_of_mem b hx)) hsum2
    refine ⟨ih1, fun q hq => ?_⟩
    rw [ih2 q (by omega)]
    exact st_block_preserves_high E model internal fw start b pos path lnl q
      hb1 hble hq

/-- C7 (amended): when the last state is not given, stochastic_traceback
samples path[end-1] from the final forward column via the external sampler
over the last block's nstates2 (clamped to 1), and records the forward VALUE
fw[end-1][path[end-1]] itself — not its logarithm — into the returned running
likelihood; over switch-free block lists the returned value is exactly that
forward value (the within-block accumulation is commented out in the source). -/
theorem C7_last_column_sample_records_value (E : ExtC α) (model : ArgModel α)
    (blocks : List (FwBlock α)) (start : Nat) (fw : Nat → Nat → α)
    (path0 : Nat → Nat) (internal : Bool)
    (hsw : ∀ b ∈ blocks, b.switch = none)
    (hlen : ∀ b ∈ blocks, 1 ≤ b.blocklen) :
    (stochastic_traceback E model blocks start fw path0 false internal).1
        (start + (blocks.map (fun b => b.blocklen)).sum - 1) =
      E.sample (fw (start + (blocks.map (fun b => b.blocklen)).sum - 1))
        (max ((blocks.getLast?.map (fun b => b.nstates2)).getD 0) 1) ∧
    (stochastic_traceback E model blocks start fw path0 false internal).2 =
      fw (start + (blocks.map (fun b => b.blocklen)).sum - 1)
        ((stochastic_traceback E model blocks start fw path0 false internal).1
          (start + (blocks.map (fun b => b.blocklen)).sum - 1)) := by
  unfold stochastic_traceback
  simp only [Bool.not_false, eq_self_iff_true, if_true]
  obtain ⟨h1, h2⟩ := st_loop_noswitch E model internal fw start blocks.reverse
    (start + (blocks.map (fun b => b.blocklen)).sum)
    (Function.update path0 (start + (blocks.map (fun b => b.blocklen)).sum - 1)
      (E.sample (fw (start + (blocks.map (fun b => b.blocklen)).sum - 1))
        (max ((blocks.getLast?.map (fun b => b.nstates2)).getD 0) 1)))
    (fw (start + (blocks.map (fun b => b.blocklen)).sum - 1)
      (Function.update path0 (start + (blocks.map (fun b => b.blocklen)).sum - 1)
        (E.sample (fw (start + (blocks.map (fun b => b.blocklen)).sum - 1))
          (max ((blocks.getLast?.map (fun b => b.nstates2)).getD 0) 1))
        (start + (blocks.map (fun b => b.blocklen)).sum - 1)))
    (fun b hb => hsw b (List.mem_reverse.mp hb))
    (fun b hb => hlen b (List.mem_reverse.mp hb))
    (by rw [List.map_reverse, List.sum_reverse])
  constructor
  · rw [h2 (start + (blocks.map (fun b => b.blocklen)).sum - 1) (by omega),
      Function.update_same]
  · rw [h1, h2 (start + (blocks.map (fun b => b.blocklen)).sum - 1) (by omega),
      Function.update_same]

theorem C7_last_column_sample_records_value_witness :
    (∀ b ∈ [w_blk1], b.switch = none) ∧ (∀ b ∈ [w_blk1], 1 ≤ b.blocklen) ∧
      ((stochastic_traceback w_extq ⟨2, fun _ => 0, 1, 0, 1 / 10, 5⟩ [w_blk1] 0
          (fun _ _ => (1 : ℚ)) (fun _ => 0) false false).1
          (0 + ([w_blk1].map (fun b => b.blocklen)).sum - 1) =
        w_extq.sample ((fun _ _ => (1 : ℚ))
            (0 + ([w_blk1].map (fun b => b.blocklen)).sum - 1))
          (max (([w_blk1].getLast?.map (fun b => b.nstates2)).getD 0) 1) ∧
      (stochastic_traceback w_extq ⟨2, fun _ => 0, 1, 0, 1 / 10, 5⟩ [w_blk1] 0
          (fun _ _ => (1 : ℚ)) (fun _ => 0) false false).2 =
        (fun _ _ => (1 : ℚ)) (0 + ([w_blk1].map (fun b => b.blocklen)).sum - 1)
          ((stochastic_traceback w_extq ⟨2, fun _ => 0, 1, 0, 1 / 10, 5⟩ [w_blk1] 0
            (fun _ _ => (1 : ℚ)) (fun _ => 0) false false).1
            (0 + ([w_blk1].map (fun b => b.blocklen)).sum - 1))) :=
  ⟨fun b hb => by rw [List.mem_singleton] at hb; subst hb; rfl,
   fun b hb => by rw [List.mem_singleton] at hb; subst hb; exact le_refl 1,
   C7_last_column_sample_records_value w_extq ⟨2, fun _ => 0, 1, 0, 1 / 10, 5⟩
     [w_blk1] 0 (fun _ _ => (1 : ℚ)) (fun _ => 0) false
     (fun b hb => by rw [List.mem_singleton] at hb; subst hb; rfl)
     (fun b hb => by rw [List.mem_singleton] at hb; subst hb; exact le_refl 1)⟩

/-- C7 counterexample: the source records the forward VALUE, not its
logarithm: on a one-block instance whose final forward column is 1/2 at every
state, the returned running likelihood is 1/2, which differs from
ln(col[end-1][path[end-1]]) = ln(1/2) < 0. -/
theorem C7_lnl_without_log_counterexample :
    (stochastic_traceback
        (⟨Real.exp, Real.log, fun _ _ => 0, fun _ => [], fun _ => 0,
          fun t _ _ => t, fun t _ => t, fun _ _ _ => [], fun _ _ _ _ => 0,
          fun m _ => m⟩ : ExtC ℝ)
        ⟨4, fun t => (t : ℝ), 1, 0, 1 / 10, 5⟩
        [⟨1, w_tree1, ⟨false, 2, fun _ _ _ _ _ => 1, fun _ _ => 0⟩, none,
          fun _ _ => 1, 2⟩] 0
        (fun _ s => if s < 2 then 1 / 2 else 0) (fun _ => 0) false false).2 ≠
      Real.log
        ((fun _ s => if s < 2 then (1 : ℝ) / 2 else 0) 0
          ((stochastic_traceback
              (⟨Real.exp, Real.log, fun _ _ => 0, fun _ => [], fun _ => 0,
                fun t _ _ => t, fun t _ => t, fun _ _ _ => [], fun _ _ _ _ => 0,
                fun m _ => m⟩ : ExtC ℝ)
              ⟨4, fun t => (t : ℝ), 1, 0, 1 / 10, 5⟩
              [⟨1, w_tree1, ⟨false, 2, fun _ _ _ _ _ => 1, fun _ _ => 0⟩, none,
                fun _ _ => 1, 2⟩] 0
              (fun _ s => if s < 2 then 1 / 2 else 0) (fun _ => 0) false false).1
            0)) := by
  have heval : ∀ q : Nat,
      (stochastic_traceback
        (⟨Real.exp, Real.log, fun _ _ => 0, fun _ => [], fun _ => 0,
          fun t _ _ => t, fun t _ => t, fun _ _ _ => [], fun _ _ _ _ => 0,
          fun m _ => m⟩ : ExtC ℝ)
        ⟨4, fun t => (t : ℝ), 1, 0, 1 / 10, 5⟩
        [⟨1, w_tree1, ⟨false, 2, fun _ _ _ _ _ => 1, fun _ _ => 0⟩, none,
          fun _ _ => 1, 2⟩] 0
        (fun _ s => if s < 2 then 1 / 2 else 0) (fun _ => 0) false false) =
      (Function.update (fun _ => 0) 0 0, 1 / 2 + 0) := by
    intro q
    norm_num [stochastic_traceback, st_loop, st_block, sample_hmm_posterior,
      Bool.not_false, eq_self_iff_true, if_true, List.map_cons, List.map_nil,
      List.sum_cons, List.sum_nil, List.reverse_cons, List.reverse_nil,
      List.nil_append, List.getLast?_singleton, Function.update_same]
  rw [heval 0]
  norm_num [Function.update_same]
  have hlog := Real.log_neg (by norm_num : (0 : ℝ) < 1 / 2)
    (by norm_num : (1 : ℝ) / 2 < 1)
  intro hcontra
  rw [← hcontra] at hlog
  norm_num at hlog

/-- C8: when the iterator yields a non-first block with a null switch
operator, the forward pass extends the previous block's column sequence: the
previous block's last column (at pos - 1) becomes the new previous column and
is left unchanged, blocklen is incremented by one and the emission pointer
shifts one site back, so the boundary column at pos is produced by the
within-block step with this block's first emission column — no switch step is
applied, and columns before pos - 1 are untouched. -/
theorem C8_no_switch_extends_previous_block (E : ExtC α) (model : ArgModel α)
    (start : Nat) (prior_given internal : Bool) (fw : Nat → Nat → α)
    (pos : Nat) (b : FwBlock α) (hpos : start < pos) (hsw : b.switch = none)
    (hni : ¬(b.transmat.internal = true ∧
      (E.getCoalStates b.tree model.ntimes internal).length = 0))
    (hbl : 1 ≤ b.blocklen) :
    ∀ out, forward_step E model start prior_given internal false fw pos b = some out →
      out (pos - 1) = fw (pos - 1) ∧
      out pos = fast_col_step b.transmat b.tree model.ntimes
        (E.getCoalStates b.tree model.ntimes internal) (fw (pos - 1)) (b.emit 0) ∧
      ∀ q, q < pos - 1 → out q = fw q := by
  intro out hout
  unfold forward_step at hout
  rw [if_neg (by omega : ¬pos = start), hsw] at hout
  dsimp only at hout
  rw [if_neg (by decide : ¬(false = true))] at hout
  split at hout
  · cases hout
  · split at hout
    · cases hout
    · have hout2 := Option.some.inj hout
      rw [← hout2]
      unfold arghmm_forward_block
      rw [if_neg hni]
      unfold fill_columns
      refine ⟨?_, ?_, ?_⟩
      · rw [if_neg (by omega : ¬(pos - 1 < pos - 1 ∧ pos - 1 < pos - 1 + (b.blocklen + 1)))]
      · rw [if_pos (by omega : pos - 1 < pos ∧ pos < pos - 1 + (b.blocklen + 1))]
        have hq : pos - (pos - 1) = 1 := by omega
        rw [hq]
        rfl
      · intro q hq
        rw [if_neg (by omega : ¬(pos - 1 < q ∧ q < pos - 1 + (b.blocklen + 1)))]

theorem C8_no_switch_extends_previous_block_witness :
    (0 : Nat) < 1 ∧
    (∀ out, forward_step w_extqS w_model 0 true false false
        (fun _ _ => (1 : ℚ)) 1 w_blkA = some out →
      out 0 = (fun _ _ => (1 : ℚ)) 0 ∧
      out 1 = fast_col_step w_blkA.transmat w_blkA.tree w_model.ntimes
        (w_extqS.getCoalStates w_blkA.tree w_model.ntimes false)
        ((fun _ _ => (1 : ℚ)) 0) (w_blkA.emit 0) ∧
      ∀ q, q < 0 → out q = (fun _ _ => (1 : ℚ)) q) :=
  ⟨by decide,
   C8_no_switch_extends_previous_block w_extqS w_model 0 true false
     (fun _ _ => (1 : ℚ)) 1 w_blkA (by decide) rfl (by decide) (by decide)⟩

theorem chooseIdx_spec (A : Nat → ℚ) (n : Nat) (h : ∃ j, j < n ∧ 0 < A j) :
    chooseIdx A n < n ∧ 0 < A (chooseIdx A n) := by
  obtain ⟨j, hj, hA⟩ := h
  have hsome : ((List.range n).find? (fun j => decide (0 < A j))).isSome := by
    rw [List.find?_isSome]
    exact ⟨j, List.mem_range.mpr hj, decide_eq_true hA⟩
  cases hf : (List.range n).find? (fun j => decide (0 < A j)) with
  | none => rw [hf] at hsome; simp at hsome
  | some a =>
    have ha1 : a ∈ List.range n := List.mem_of_find?_eq_some hf
    have ha2 : (0 : ℚ) < A a := by
      have h3 := List.find?_some hf
      simpa using h3
    unfold chooseIdx
    rw [hf]
    exact ⟨List.mem_range.mp ha1, ha2⟩

theorem find_vector_lt (states : List StateP) (s : StateP)
    (h : find_vector states s ≠ -1) :
    (find_vector states s).toNat < states.length := by
  unfold find_vector at h ⊢
  cases hf : states.findIdx? (fun x => decide (x = s)) with
  | none => rw [hf] at h; exact absurd rfl h
  | some i =>
    have h2 := (List.findIdx?_eq_some_iff_findIdx_eq.mp hf).1
    simpa using h2

theorem forward_step_start_seed (E : ExtC α) (model : ArgModel α)
    (start : Nat) (fw : Nat → Nat → α) (b : FwBlock α) (out : Nat → Nat → α)
    (hout : forward_step E model start true false false fw start b = some out) :
    out start = fw start := by
  unfold forward_step at hout
  rw [if_pos rfl] at hout
  dsimp only at hout
  rw [if_neg (by decide : ¬((!true : Bool) = true))] at hout
  rw [if_neg (by decide : ¬(false = true))] at hout
  split at hout
  · cases hout
  · split at hout
    · cases hout
    · have h2 := Option.some.inj hout
      by_cases hc : b.transmat.internal = true ∧
          (E.getCoalStates b.tree model.ntimes false).length = 0
      · rw [← h2]
        unfold arghmm_forward_block
        rw [if_pos hc]
        rw [if_neg (by omega : ¬(start < start ∧ start < start + b.blocklen))]
      · rw [← h2]
        unfold arghmm_forward_block
        rw [if_neg hc]
        unfold fill_columns
        rw [if_neg (by omega : ¬(start < start ∧ start < start + b.blocklen))]

theorem shp_loop_base_val (E : ExtC α) (tree : LocalTree) (states : List StateP)
    (m : TransMatrix α) (fw : Nat → Nat → α) (base : Nat) :
    ∀ (i : Nat) (path : Nat → Nat), ∃ p1 : Nat → Nat,
      shp_loop E tree states m fw base i path base =
        E.sample (fun j => if j < max states.length 1
            then fw base j * m.get tree states j (p1 (base + 1)) else 0)
          (max states.length 1) := by
  intro i
  induction i with
  | zero =>
    intro path
    refine ⟨path, ?_⟩
    show shp_write E tree states m fw base path 0 base = _
    unfold shp_write
    rw [Nat.add_zero, Function.update_same]
  | succ i ih =>
    intro path
    exact ih (shp_write E tree states m fw base path (i + 1))

/-- C9: when a start state is pinned, cond_sample_arg_thread locates its index
in the first block's states and fails (returns none) when it is absent; on
success the forward column at the start coordinate is the one-hot column at
that index (the forward pass preserves the seed column), the traced state at
the start coordinate is that index (the traceback samples it back from the
one-hot column), and so the forward entry at the start coordinate for the
traced state equals 1.  Single-block run with at least two sites, a faithful
sampler and positive transition entries. -/
theorem C9_cond_sample_pinned_start (E : ExtC α) (model : ArgModel α)
    (b : FwBlock α) (start : Nat) (start_state end_state : StateP)
    (hbl : 2 ≤ b.blocklen)
    (hs : ∀ (A : Nat → α) (n : Nat), (∃ j, j < n ∧ 0 < A j) →
      E.sample A n < n ∧ 0 < A (E.sample A n))
    (hT : ∀ j k, 0 < b.transmat.get b.tree
      (E.getCoalStates b.tree model.ntimes false) j k) :
    (find_vector (E.getCoalStates b.tree model.ntimes false) start_state = -1 →
      cond_sample_arg_thread E model [b] start start_state end_state = none) ∧
    (∀ fw path,
      cond_sample_arg_thread E model [b] start start_state end_state =
        some (fw, path) →
      fw start = (fun s => if s = (find_vector
          (E.getCoalStates b.tree model.ntimes false) start_state).toNat
        then 1 else 0) ∧
      path start = (find_vector
          (E.getCoalStates b.tree model.ntimes false) start_state).toNat ∧
      fw start (path start) = 1) := by
  constructor
  · intro hj
    unfold cond_sample_arg_thread
    dsimp only
    rw [if_pos hj]
  · intro fw path hres
    unfold cond_sample_arg_thread at hres
    dsimp only at hres
    by_cases hj : find_vector (E.getCoalStates b.tree model.ntimes false)
        start_state = -1
    · rw [if_pos hj] at hres; cases hres
    · rw [if_neg hj] at hres
      split at hres
      · cases hres
      · rename_i fwv hfa
        simp only [List.getLast?_singleton, Option.map_some', Option.getD_some]
          at hres
        by_cases hk : find_vector (E.getCoalStates b.tree model.ntimes false)
            end_state = -1
        · rw [if_pos hk] at hres; cases hres
        · rw [if_neg hk] at hres
          rw [Option.some.injEq, Prod.mk.injEq] at hres
          obtain ⟨hfw, hpath⟩ := hres
          have hseed : fwv start = (fun s => if s = (find_vector
              (E.getCoalStates b.tree model.ntimes false) start_state).toNat
            then 1 else 0) := by
            unfold arghmm_forward_alg arghmm_forward_aux at hfa
            split at hfa
            · cases hfa
            · rename_i fw2 hstep
              have h3 : fw2 = fwv := Option.some.inj hfa
              rw [← h3]
              have h4 := forward_step_start_seed E model start _ b fw2 hstep
              rw [h4, Function.update_same]
          have hj0lt := find_vector_lt
            (E.getCoalStates b.tree model.ntimes false) start_state hj
          have hpath2 : path start = (find_vector
              (E.getCoalStates b.tree model.ntimes false) start_state).toNat := by
            rw [← hpath]
            obtain ⟨i2, hi2⟩ : ∃ i2, b.blocklen = i2 + 2 :=
              ⟨b.blocklen - 2, by omega⟩
            have hbne : ¬((!true : Bool) = true) := by decide
            unfold stochastic_traceback
            dsimp only
            rw [if_neg hbne, if_neg hbne]
            simp only [List.map_cons, List.map_nil, List.sum_cons, List.sum_nil,
              List.reverse_cons, List.reverse_nil, List.nil_append]
            unfold st_loop
            dsimp only
            unfold st_block
            dsimp only
            rw [hi2]
            rw [if_neg (by omega : ¬start + (i2 + 2 + 0) - (i2 + 2) > start)]
            unfold st_loop
            dsimp only
            rw [show start + (i2 + 2 + 0) - (i2 + 2) = start from by omega]
            unfold sample_hmm_posterior
            dsimp only
            obtain ⟨p1, hb1⟩ := shp_loop_base_val E b.tree
              (E.getCoalStates b.tree model.ntimes false) b.transmat fwv start
              i2 (Function.update (fun _ => 0) (start + (i2 + 2 + 0) - 1)
                (find_vector (E.getCoalStates b.tree model.ntimes false)
                  end_state).toNat)
            rw [hb1]
            set n := max (E.getCoalStates b.tree model.ntimes false).length 1
              with hn
            set A : Nat → α := fun j => if j < n
              then fwv start j * b.transmat.get b.tree
                (E.getCoalStates b.tree model.ntimes false) j (p1 (start + 1))
              else 0 with hA
            have hn0 : (find_vector (E.getCoalStates b.tree model.ntimes false)
                start_state).toNat < n :=
              lt_of_lt_of_le hj0lt (le_max_left _ _)
            have hApos : 0 < A (find_vector
                (E.getCoalStates b.tree model.ntimes false) start_state).toNat := by
              show 0 < (if (find_vector (E.getCoalStates b.tree model.ntimes false)
                  start_state).toNat < n
                then fwv start (find_vector
                    (E.getCoalStates b.tree model.ntimes false) start_state).toNat *
                  b.transmat.get b.tree
                    (E.getCoalStates b.tree model.ntimes false)
                    (find_vector (E.getCoalStates b.tree model.ntimes false)
                      start_state).toNat (p1 (start + 1))
                else 0)
              rw [if_pos hn0, hseed]
              dsimp only
              rw [if_pos rfl, one_mul]
              exact hT _ _
            obtain ⟨h5, h6⟩ := hs A n ⟨_, hn0, hApos⟩
            rcases eq_or_ne (E.sample A n) ((find_vector
                (E.getCoalStates b.tree model.ntimes false) start_state).toNat)
              with heq | hne
            · exact heq
            · exfalso
              have hz : A (E.sample A n) = 0 := by
                show (if E.sample A n < n
                  then fwv start (E.sample A n) * b.transmat.get b.tree
                    (E.getCoalStates b.tree model.ntimes false) (E.sample A n)
                    (p1 (start + 1))
                  else 0) = 0
                rw [if_pos h5, hseed]
                dsimp only
                rw [if_neg hne, zero_mul]
              rw [hz] at h6
              exact lt_irrefl 0 h6
          refine ⟨?_, hpath2, ?_⟩
          · rw [← hfw]; exact hseed
          · rw [← hfw, hpath2, hseed]
            dsimp only
            rw [if_pos rfl]

theorem C9_cond_sample_pinned_start_witness :
    2 ≤ w_blkB.blocklen ∧
    ((find_vector (w_extqS.getCoalStates w_blkB.tree w_model.ntimes false)
        (0, 0) = -1 →
      cond_sample_arg_thread w_extqS w_model [w_blkB] 0 (0, 0) (0, 0) = none) ∧
     (∀ fw path,
      cond_sample_arg_thread w_extqS w_model [w_blkB] 0 (0, 0) (0, 0) =
        some (fw, path) →
      fw 0 = (fun s => if s = (find_vector
          (w_extqS.getCoalStates w_blkB.tree w_model.ntimes false) (0, 0)).toNat
        then 1 else 0) ∧
      path 0 = (find_vector
          (w_extqS.getCoalStates w_blkB.tree w_model.ntimes false) (0, 0)).toNat ∧
      fw 0 (path 0) = 1)) :=
  ⟨by decide,
   C9_cond_sample_pinned_start w_extqS w_model w_blkB 0 (0, 0) (0, 0)
     (by decide)
     (fun A n h => chooseIdx_spec A n h)
     (fun j k => by
        have h0 : ∀ i : Nat,
            ([((0 : Nat), (0 : Nat))] : List StateP).getD i (0, 0) = (0, 0) := by
          intro i
          cases i with
          | zero => rfl
          | succ i => rfl
        show (0 : ℚ) < w_blkB.transmat.get w_blkB.tree [(0, 0)] j k
        simp only [TransMatrix.get, h0, w_blkB, w_tmA]
        norm_num)⟩
